import Mathlib

/-!
Verification development for the VideoSort post-processing script
(`VideoSort.py`).  The script's text-manipulation core is embedded
shallowly: Python strings become `List Char`, Python functions become
executable Lean functions, and the handful of `while` loops become
fuel-based structural recursions (the fuel is always chosen large enough
that the fuel-out branch is unreachable, which is proved where a theorem
needs it).  Filesystem state is modelled as an explicit record of the
set of existing paths plus the script's two module-level lists of moved
sources and destinations; the filesystem operations the script performs
(`os.remove`, `shutil.move`, `os.makedirs`) are reified as an effect
list so that statements about preview mode can talk about them.

Python-specific behaviour is modelled faithfully:
* `str.strip()` strips the six ASCII whitespace characters;
* `str.strip(c)` strips one character from both ends;
* `str.replace(a, b)` is a left-to-right non-overlapping global replace;
* `os.path.normpath`, `os.path.splitext`, `os.path.dirname` follow the
  POSIX (`posixpath`) implementations the script uses on the platforms
  it targets;
* `str(n)` for a nonnegative integer is decimal numeral rendering.
-/

/-- Python `str.isspace` characters: the set stripped by `str.strip()`. -/
def isPySpace (c : Char) : Bool :=
  c = ' ' || c = '\t' || c = '\n' || c = '\r' || c = '\x0b' || c = '\x0c'

/-- Drop leading characters satisfying `p` (left part of Python `strip`). -/
def trimLeftP (p : Char → Bool) (s : List Char) : List Char :=
  s.dropWhile p

/-- Drop trailing characters satisfying `p` (right part of Python `strip`). -/
def trimRightP (p : Char → Bool) (s : List Char) : List Char :=
  (s.reverse.dropWhile p).reverse

/-- Python `s.strip()`: remove leading and trailing whitespace. -/
def pyStrip (s : List Char) : List Char :=
  trimRightP isPySpace (trimLeftP isPySpace s)

/-- Python `s.strip(c)` for a single strip character `c`. -/
def stripChar (c : Char) (s : List Char) : List Char :=
  trimRightP (fun a => a = c) (trimLeftP (fun a => a = c) s)

/-- Python `s.rstrip(c)` for a single strip character `c`. -/
def rstripChar (c : Char) (s : List Char) : List Char :=
  trimRightP (fun a => a = c) s

/-- Boolean prefix test, `pat` against `s` (Python `str.startswith`). -/
def isPfx : List Char → List Char → Bool
  | [], _ => true
  | _ :: _, [] => false
  | a :: asTail, b :: bs => a = b && isPfx asTail bs

/-- Python `s[-n:]`: the last `n` characters (the whole string when shorter). -/
def lastN (n : Nat) (s : List Char) : List Char :=
  s.drop (s.length - n)

/-- The five-character extension token `.%ext`. -/
def extTok : List Char := ['.', '%', 'e', 'x', 't']

/-- Extension-ensuring step of `construct_path` (VideoSort.py lines 717-719):
`if format.rstrip('\x7d')[-5:] != '.%ext': format += '.%ext'`. -/
def ensure_extension (format : List Char) : List Char :=
  if lastN 5 (rstripChar '\x7d' format) ≠ extTok then format ++ extTok else format

/-- A plain ends-with test used to state the claim about `ensure_extension`
(the claim's notion of "already ends with the extension token"). -/
def endsWithTok (s : List Char) : Bool :=
  lastN 5 s = extTok

/-- Python `s.replace(pat, rep)` scan: left-to-right, non-overlapping.
Fuel-based so that the kernel can evaluate it; one unit of fuel is spent
per character position, so `s.length` fuel always suffices (proved below).
Assumes `pat` is nonempty (guarded by `replaceAll`). -/
def replaceAllGo (pat rep : List Char) : Nat → List Char → List Char
  | 0, s => s
  | _ + 1, [] => []
  | fuel + 1, c :: rest =>
    if isPfx pat (c :: rest) then
      rep ++ replaceAllGo pat rep fuel (rest.drop (pat.length - 1))
    else
      c :: replaceAllGo pat rep fuel rest

/-- Python `s.replace(pat, rep)`.  The script never calls it with an empty
pattern (every key of `REPLACE_AFTER` and every exception word is nonempty),
so the empty-pattern insertion behaviour of Python is not modelled. -/
def replaceAll (s pat rep : List Char) : List Char :=
  if pat = [] then s else replaceAllGo pat rep s.length s

/-- One pass of the cleanup loop of `construct_path` (lines 732-737): apply
`str.replace` for every entry of `REPLACE_AFTER` (lines 352-360) in the
table's textual order.  The duplicated `'__'` key collapses in the Python
dict, leaving six rules; idempotence of the overall fixed-point iteration
(claim C6) is independent of the dict's iteration order. -/
def collapsePass (s : List Char) : List Char :=
  replaceAll
    (replaceAll
      (replaceAll
        (replaceAll
          (replaceAll
            (replaceAll s ['(', ')'] [])
            ['.', '.'] ['.'])
          ['_', '_'] ['_'])
        [' ', ' '] [' '])
      ['/', '/'] ['/'])
    [' ', '-', ' ', '-', ' '] [' ', '-', ' ']

/-- Fuel-driven iteration of `collapsePass` until a fixed point, mirroring
`while old_path != path: old_path = path; for ...: path = path.replace(...)`.
Each changing pass strictly shrinks the string (every rule's replacement is
shorter than its key), so `s.length + 1` fuel reaches the fixed point. -/
def collapseArtifactsGo : Nat → List Char → List Char
  | 0, s => s
  | fuel + 1, s =>
    let t := collapsePass s
    if t = s then s else collapseArtifactsGo fuel t

/-- The artifact-collapsing cleanup of `construct_path` (lines 732-737). -/
def collapseArtifacts (s : List Char) : List Char :=
  collapseArtifactsGo (s.length + 1) s

/-- First pair of the mapping whose key matches the input at the current
position (the inner `for key, value in mapping` loop of `path_subst`,
lines 374-378, which `break`s at the first `path.startswith(key, n)`). -/
def firstMatch (s : List Char) : List (List Char × List Char) → Option (List Char × List Char)
  | [] => none
  | kv :: rest => if isPfx kv.1 s then some kv else firstMatch s rest

/-- Scanner of `path_subst` (lines 362-381), recast on the remaining suffix:
the Python loop keeps an index `n`; here the current suffix of the input
plays that role.  On a `%` the first matching key is consumed — the Python
`n += len(key)-1` followed by the loop's `n += 1` advances by `len(key)`,
which for a suffix `c :: rest` is `rest.drop (key.length - 1)` — and its
value is emitted; otherwise the character is copied.  Fuel-based (one unit
per loop iteration); with every key nonempty, `s.length` fuel suffices.
A mapping with an empty key would make the Python loop diverge; the model's
fuel-out branch returns the empty string and no theorem relies on it. -/
def path_subst_go (mapping : List (List Char × List Char)) : Nat → List Char → List Char
  | 0, _ => []
  | _ + 1, [] => []
  | fuel + 1, c :: rest =>
    if c = '%' then
      match firstMatch (c :: rest) mapping with
      | some (key, value) => value ++ path_subst_go mapping fuel (rest.drop (key.length - 1))
      | none => c :: path_subst_go mapping fuel rest
    else
      c :: path_subst_go mapping fuel rest

/-- The substitution engine `path_subst(path, mapping)` (lines 362-381). -/
def path_subst (path : List Char) (mapping : List (List Char × List Char)) : List Char :=
  path_subst_go mapping path.length path

/-- Python 2 regex `\w` for byte strings without `re.UNICODE`:
ASCII letters, digits and underscore. -/
def isWordChar (c : Char) : Bool :=
  ('a' ≤ c && c ≤ 'z') || ('A' ≤ c && c ≤ 'Z') || ('0' ≤ c && c ≤ '9') || c = '_'

/-- Case-insensitive character comparison, as `re.I` performs for ASCII. -/
def ciEq (a b : Char) : Bool :=
  a.toLower = b.toLower

/-- Case-insensitive prefix test of a literal word against a text. -/
def ciPfx : List Char → List Char → Bool
  | [], _ => true
  | _ :: _, [] => false
  | a :: asTail, b :: bs => ciEq a b && ciPfx asTail bs

/-- Does the regex `\W(one)(\W|$)` of `replace_word` (line 440) match at the
head of `s`?  Returns the number of characters the match consumes (the
alternation tries `\W` before `$`, so `$` only ever fires at the true end
of the string).  The word `one` is treated as a literal, which is accurate
for the script's exception words (plain letters, no regex metacharacters). -/
def wordMatchHere (one s : List Char) : Option Nat :=
  match s with
  | [] => none
  | c :: rest =>
    if !isWordChar c && ciPfx one rest then
      match rest.drop one.length with
      | [] => some (1 + one.length)
      | d :: _ => if !isWordChar d then some (1 + one.length + 1) else none
    else none

/-- Number of matches `re.findall` reports for `\W(one)(\W|$)` on `s`:
left-to-right, non-overlapping — after a match the scan resumes past the
consumed characters, otherwise it advances one character.  Fuel-based;
`s.length` fuel suffices since every step consumes at least one character. -/
def countWordMatches (one : List Char) : Nat → List Char → Nat
  | 0, _ => 0
  | _ + 1, [] => 0
  | fuel + 1, c :: rest =>
    match wordMatchHere one (c :: rest) with
    | some k => 1 + countWordMatches one fuel ((c :: rest).drop k)
    | none => countWordMatches one fuel rest

/-- The word-case exception helper `replace_word(input, one, two)`
(lines 438-445): count the regex matches, then perform that many global
`str.replace(one, two)` passes (the Python `for m in matches` loop). -/
def replace_word (input one two : List Char) : List Char :=
  Nat.rec input (fun _ acc => replaceAll acc one two)
    (countWordMatches one input.length input)

/-- A classifier guess, restricted to the attributes `guess_hacks` reads or
writes.  `episodeNumber` is the integer guessit reports (or absent); the
sentinel year is stored as the string the code assigns. -/
structure Guess where
  type : Option (List Char)
  episodeNumber : Option Nat
  series : Option (List Char)
  title : Option (List Char)
  year : Option (List Char)
deriving DecidableEq, Repr

/-- Python truthiness of `guess.get('episodeNumber')`: `None` and `0` are
falsy. -/
def epnFalsy : Option Nat → Bool
  | none => true
  | some n => n = 0

/-- The reclassification step `guess_hacks` (lines 521-529). -/
def guess_hacks (g : Guess) : Guess :=
  if g.type = some ['e', 'p', 'i', 's', 'o', 'd', 'e'] ∧ epnFalsy g.episodeNumber then
    { g with
      type := some ['m', 'o', 'v', 'i', 'e']
      title := g.series
      year := some ['1', '9', '0', '0'] }
  else g

/-- Exit codes used by NZBGet (lines 183-185). -/
def POSTPROCESS_SUCCESS : Nat := 93

/-- Neutral exit code (line 184). -/
def POSTPROCESS_NONE : Nat := 95

/-- Error exit code (line 185). -/
def POSTPROCESS_ERROR : Nat := 94

/-- Outcome of processing one file inside the per-file `try` block of the
main loop (lines 769-798).  `skipped` covers the `continue` filters and a
`construct_path` returning `None`; `moved` is a fully successful move;
`movedThenRaised` is an exception raised after `files_moved = True`
(e.g. while moving satellites); `raisedBeforeMove` is an exception raised
before any move. -/
inductive FileOutcome
  | skipped
  | moved
  | movedThenRaised
  | raisedBeforeMove
deriving DecidableEq, Repr

/-- Does the outcome set `files_moved`? -/
def outcomeMoved : FileOutcome → Bool
  | .moved => true
  | .movedThenRaised => true
  | _ => false

/-- Does the outcome reach the `except` handler and set `errors`? -/
def outcomeRaised : FileOutcome → Bool
  | .movedThenRaised => true
  | .raisedBeforeMove => true
  | _ => false

/-- One iteration of the main loop on the `(files_moved, errors)` flags:
an exception is caught at the per-file boundary and only sets `errors`. -/
def loopStep (fl : Bool × Bool) (o : FileOutcome) : Bool × Bool :=
  (fl.1 || outcomeMoved o, fl.2 || outcomeRaised o)

/-- The whole main loop (lines 762-798): fold over the per-file outcomes
starting from `files_moved = False`, `errors = False`. -/
def mainLoop (outcomes : List FileOutcome) : Bool × Bool :=
  outcomes.foldl loopStep (false, false)

/-- Exit-code selection (lines 808-813). -/
def exit_code (fl : Bool × Bool) : Nat :=
  if fl.2 then POSTPROCESS_ERROR
  else if fl.1 then POSTPROCESS_SUCCESS
  else POSTPROCESS_NONE

/-- Decimal rendering of a natural number, modelling Python `str(n)` for the
nonnegative suffix counter of `unique_name`.  Fuel-based (`n` itself is
always enough fuel, since `n / 10 < n` for `n ≥ 10`). -/
def natReprGo : Nat → Nat → List Char
  | 0, n => [Nat.digitChar (n % 10)]
  | fuel + 1, n =>
    if n < 10 then [Nat.digitChar n]
    else natReprGo fuel (n / 10) ++ [Nat.digitChar (n % 10)]

/-- Python `str(n)` for `n : Nat`. -/
def natRepr (n : Nat) : List Char :=
  natReprGo n n

/-- Python `s.rfind(c)`: index of the last occurrence of `c`, `none` when
absent (Python returns `-1`). -/
def rfindIdx (c : Char) : List Char → Option Nat
  | [] => none
  | a :: rest =>
    match rfindIdx c rest with
    | some j => some (j + 1)
    | none => if a = c then some 0 else none

/-- POSIX `os.path.splitext(p)`: split off the extension at the last dot
after the last slash, unless every character between them is a dot
(so `.bashrc` has no extension).  Mirrors the generic `splitext` of
`posixpath` with `sep='/'`, `extsep='.'`. -/
def splitext (p : List Char) : List Char × List Char :=
  match rfindIdx '.' p with
  | none => (p, [])
  | some d =>
    let start : Nat :=
      match rfindIdx '/' p with
      | none => 0
      | some s => s + 1
    if start ≤ d ∧ ((p.drop start).take (d - start)).any (fun ch => ch ≠ '.') then
      (p.take d, p.drop d)
    else
      (p, [])

/-- POSIX `os.path.dirname(p)`: everything up to the last slash, with
trailing slashes stripped unless the head is all slashes. -/
def dirname (p : List Char) : List Char :=
  let i : Nat :=
    match rfindIdx '/' p with
    | none => 0
    | some j => j + 1
  let head := p.take i
  if head ≠ [] ∧ head ≠ List.replicate head.length '/' then rstripChar '/' head
  else head

/-- Python `s.split('/')`: separator-keeping split, `[""]` on the empty
string. -/
def splitOnSlash : List Char → List (List Char)
  | [] => [[]]
  | c :: rest =>
    if c = '/' then [] :: splitOnSlash rest
    else
      match splitOnSlash rest with
      | [] => [[c]]
      | s :: ss => (c :: s) :: ss

/-- Python `'/'.join(l)`. -/
def joinSlash : List (List Char) → List Char
  | [] => []
  | [x] => x
  | x :: xs => x ++ '/' :: joinSlash xs

/-- Number of initial slashes `posixpath.normpath` preserves: exactly two
leading slashes are kept as two, any other positive number as one. -/
def normSlashes (p : List Char) : Nat :=
  if isPfx ['/'] p then
    if isPfx ['/', '/'] p ∧ ¬ isPfx ['/', '/', '/'] p then 2 else 1
  else 0

/-- One component step of `posixpath.normpath`: drop empty and `.`
components, append ordinary components, and treat `..` by the POSIX rules
(kept when relative at the front or after another kept `..`, otherwise it
pops the previous component). -/
def normStep (initialSlashes : Nat) (acc : List (List Char)) (comp : List Char) :
    List (List Char) :=
  if comp = [] ∨ comp = ['.'] then acc
  else if comp ≠ ['.', '.'] ∨ (initialSlashes = 0 ∧ acc = []) ∨
          (acc ≠ [] ∧ acc.getLast? = some ['.', '.']) then acc ++ [comp]
  else if acc ≠ [] then acc.dropLast
  else acc

/-- POSIX `os.path.normpath(p)` (the `posixpath` implementation used by the
script): empty path becomes `.`, up to two initial slashes are preserved,
components are normalized by `normStep`, and an empty result becomes `.`. -/
def normpath (p : List Char) : List Char :=
  if p = [] then ['.']
  else
    let initialSlashes := normSlashes p
    let newComps := (splitOnSlash p).foldl (normStep initialSlashes) []
    let res := List.replicate initialSlashes '/' ++ joinSlash newComps
    if res = [] then ['.'] else res

/-- One pass of the inner loop of `strip_all` (lines 495-505):
`for strip_char in STRIP_AFTER: x = x.strip().strip(strip_char)` with
`STRIP_AFTER = ('_', '.', '-')`. -/
def stripPass (x : List Char) : List Char :=
  stripChar '-' (pyStrip (stripChar '.' (pyStrip (stripChar '_' (pyStrip x)))))

/-- The `while old_name != x` fixed-point loop of `strip_all`.  Fuel-based:
each changing pass strictly shrinks the segment, so `x.length + 1` fuel
reaches the fixed point. -/
def strip_all_go : Nat → List Char → List Char
  | 0, x => x
  | fuel + 1, x =>
    let y := stripPass x
    if y = x then x else strip_all_go fuel y

/-- The inner helper `strip_all` of `strip_folders`. -/
def strip_all (x : List Char) : List Char :=
  strip_all_go (x.length + 1) x

/-- `strip_folders(path)` (lines 486-507).  Python raises `IndexError` on
`path.strip()[0]` when the path is empty or all whitespace; the model
returns `none` there.  Otherwise: split the `'/'`-stripped path on `/`,
prepend an empty element when the path starts with `/` or `\`, strip each
segment to its fixed point, rejoin and normalize. -/
def strip_folders (path : List Char) : Option (List Char) :=
  let f0 := splitOnSlash (stripChar '/' path)
  match pyStrip path with
  | [] => none
  | c :: _ =>
    let f := if c = '/' ∨ c = '\\' then [] :: f0 else f0
    some (normpath (joinSlash (f.map strip_all)))

/-- Is `c` one of the characters `strip_all` removes from segment ends
(whitespace, `_`, `.`, `-`)?  This is the character set of claims C5/C10. -/
def isStripChar (c : Char) : Bool :=
  isPySpace c || c = '_' || c = '.' || c = '-'

/-- A path segment is clean when it neither starts nor ends with a strip
character (the empty segment is clean). -/
def cleanSeg (seg : List Char) : Bool :=
  (match seg.head? with
   | none => true
   | some c => !isStripChar c) &&
  (match seg.getLast? with
   | none => true
   | some c => !isStripChar c)

/-- Script configuration relevant to `rename`: the `Overwrite` and `Preview`
options and the global `dupe_separator` chosen by `guess_dupe_separator`. -/
structure Config where
  overwrite : Bool
  preview : Bool
  sep : List Char
deriving DecidableEq, Repr

/-- Run state: the set of paths existing on the filesystem (files, and the
directories `os.makedirs` creates — `os.path.exists` is true for both) plus
the module-level lists `moved_src_files` and `moved_dst_files`. -/
structure RunState where
  fs : List (List Char)
  moved_src : List (List Char)
  moved_dst : List (List Char)
deriving DecidableEq, Repr

/-- Filesystem-mutating operations the move path can perform, reified so
that preview-mode statements can quantify over them. -/
inductive FsOp
  | remove (p : List Char)
  | move (src dst : List Char)
  | makedirs (d : List Char)
deriving DecidableEq, Repr

/-- Result of `rename`: the new run state, the filesystem-mutating
operations actually performed, and the returned destination path. -/
structure RenameResult where
  st : RunState
  ops : List FsOp
  dest : List Char
deriving DecidableEq, Repr

/-- The `os.path.exists(new) or new in moved_dst_files` test (line 282),
also used (negated, conjunctively) by `unique_name` (line 273). -/
def isBusy (st : RunState) (name : List Char) : Bool :=
  st.fs.contains name || st.moved_dst.contains name

/-- The candidate name `fname + dupe_separator + '(' + str(k) + ')' + fext`
built by `unique_name` (line 272). -/
def candName (fname fext sep : List Char) (k : Nat) : List Char :=
  fname ++ sep ++ ['('] ++ natRepr k ++ [')'] ++ fext

/-- The `while True` search of `unique_name` (lines 270-275), fuel-based:
try suffix `k`, `k+1`, ... until a candidate is free both on disk and in
`moved_dst_files`.  With `st.fs.length + st.moved_dst.length + 1` fuel the
search always succeeds (the candidates are pairwise distinct, so at most
`st.fs.length + st.moved_dst.length` of them can be busy); the fuel-out
branch returns the current candidate and is unreachable then. -/
def uniqueNameGo (st : RunState) (fname fext sep : List Char) : Nat → Nat → List Char
  | 0, k => candName fname fext sep k
  | fuel + 1, k =>
    let c := candName fname fext sep k
    if isBusy st c then uniqueNameGo st fname fext sep fuel (k + 1) else c

/-- `unique_name(new)` (lines 264-276): split the extension and search for
the first free numeric suffix starting at 2. -/
def unique_name (st : RunState) (sep new : List Char) : List Char :=
  let fe := splitext new
  uniqueNameGo st fe.1 fe.2 sep (st.fs.length + st.moved_dst.length + 1) 2

/-- The non-colliding branch of `rename` (lines 291-298): in preview mode
nothing touches the filesystem; otherwise the destination's directory is
created when missing and the file is moved (the move removes the source
path and creates the destination).  `moved_src_files`/`moved_dst_files`
are appended in both modes. -/
def doMove (cfg : Config) (st : RunState) (old new : List Char) : RunState × List FsOp :=
  if cfg.preview then
    ({ st with moved_src := st.moved_src ++ [old], moved_dst := st.moved_dst ++ [new] }, [])
  else
    let mk : List FsOp :=
      if st.fs.contains (dirname new) then [] else [FsOp.makedirs (dirname new)]
    let fs' :=
      (if st.fs.contains (dirname new) then st.fs else dirname new :: st.fs)
    ({ fs := new :: fs'.erase old
       moved_src := st.moved_src ++ [old]
       moved_dst := st.moved_dst ++ [new] },
     mk ++ [FsOp.move old new])

/-- `rename(old, new)` (lines 278-299), fuel-based for the self-recursion
`rename(old, unique_name(new))`.  The recursion depth is at most 2 because
`unique_name` returns a free name, so `fuel ≥ 2` is always enough; the
fuel-out branch performs nothing and is unreachable then.  Note that the
overwrite branch (lines 283-286) runs `os.remove` and `shutil.move`
without consulting `preview` — exactly as the source does — and that the
Python appends to the moved lists happen at the end of *every* activation,
so a collision-resolving call appends the resolved pair twice. -/
def renameGo (cfg : Config) : Nat → RunState → List Char → List Char → RenameResult
  | 0, st, _, new => { st := st, ops := [], dest := new }
  | fuel + 1, st, old, new =>
    if isBusy st new then
      if cfg.overwrite ∧ ¬ st.moved_dst.contains new then
        { st :=
            { fs := new :: (st.fs.erase new).erase old
              moved_src := st.moved_src ++ [old]
              moved_dst := st.moved_dst ++ [new] }
          ops := [FsOp.remove new, FsOp.move old new]
          dest := new }
      else
        let new2 := unique_name st cfg.sep new
        let inner := renameGo cfg fuel st old new2
        { st :=
            { inner.st with
              moved_src := inner.st.moved_src ++ [old]
              moved_dst := inner.st.moved_dst ++ [new2] }
          ops := inner.ops
          dest := new2 }
    else
      let m := doMove cfg st old new
      { st := m.1, ops := m.2, dest := new }

/-- `rename(old, new)` with its standard fuel. -/
def rename (cfg : Config) (st : RunState) (old new : List Char) : RenameResult :=
  renameGo cfg (st.fs.length + st.moved_dst.length + 2) st old new

/-- Process a batch of source files all of which computed the same desired
destination `p`: call `rename` for each in order and collect the returned
final paths (the situation of claim C3). -/
def processAll (cfg : Config) (st : RunState) (srcs : List (List Char)) (p : List Char) :
    RunState × List (List Char) :=
  match srcs with
  | [] => (st, [])
  | src :: rest =>
    let r := rename cfg st src p
    let next := processAll cfg r.st rest p
    (next.1, r.dest :: next.2)

/-- The final paths claim C3 predicts for `n` files with desired path `p`:
the unsuffixed `p` first, then suffixes `(2)`, `(3)`, ... in order. -/
def expectedFinals (p sep : List Char) : Nat → List (List Char)
  | 0 => []
  | n + 1 => p :: (List.range n).map (fun i => candName (splitext p).1 (splitext p).2 sep (i + 2))

/-- Destination of the `(i+1)`-st file of a same-desired-path batch:
the unsuffixed path for the first file, then suffix `(i+1)`. -/
def nextDest (p sep : List Char) (i : Nat) : List Char :=
  if i = 0 then p else candName (splitext p).1 (splitext p).2 sep (i + 1)

/-- Invariant of the same-desired-path batch run after `i` files: the
destination list is (as a set) the initial one plus exactly the expected
finals, and every path on disk was there initially, is an expected final,
or is the destination directory created by a move. -/
def RunInv (fs0 dst0 : List (List Char)) (p sep : List Char) (i : Nat) (st : RunState) : Prop :=
  (∀ x, x ∈ st.moved_dst ↔ x ∈ dst0 ∨ x ∈ expectedFinals p sep i) ∧
  (∀ x ∈ st.fs, x ∈ fs0 ∨ x ∈ expectedFinals p sep i ∨ (1 ≤ i ∧ x = dirname p))

/-! ## General lemmas about the text utilities -/

theorem dropWhile_cons_neg {p : Char → Bool} {a : Char} {l : List Char} (h : p a = false) :
    List.dropWhile p (a :: l) = a :: l := by
  simp [List.dropWhile, h]

theorem trimRightP_append_stop {p : Char → Bool} {t : List Char} (f : List Char)
    (ht : t ≠ []) (hlast : ∀ c, t.getLast? = some c → p c = false) :
    trimRightP p (f ++ t) = f ++ t := by
  unfold trimRightP
  rw [List.reverse_append]
  obtain ⟨c, rest, hrev⟩ : ∃ c rest, t.reverse = c :: rest := by
    cases htr : t.reverse with
    | nil => exact absurd (by simpa using congrArg List.reverse htr) ht
    | cons c rest => exact ⟨c, rest, rfl⟩
  have hc : t.getLast? = some c := by
    rw [← List.head?_reverse, hrev]; rfl
  rw [hrev, List.cons_append, dropWhile_cons_neg (hlast c hc), ← List.cons_append, ← hrev,
    List.reverse_append, List.reverse_reverse, List.reverse_reverse]

theorem lastN_append_self {t : List Char} (f : List Char) (h : t.length = 5) :
    lastN 5 (f ++ t) = t := by
  unfold lastN
  rw [List.length_append, h, Nat.add_sub_cancel, List.drop_left]

/-! ## Claim C7: the extension-ensuring step -/

/-- Helper: `rstripChar` leaves a string ending in `.%ext` unchanged. -/
theorem rstrip_brace_append_extTok (f : List Char) :
    rstripChar '\x7d' (f ++ extTok) = f ++ extTok := by
  apply trimRightP_append_stop
  · simp [extTok]
  · intro c hc
    simp only [extTok] at hc
    simp only [List.getLast?] at hc
    simp_all
    subst hc
    decide

/-- C7-counterexample: the claim quantifies over "every format string that
does not already end with the extension token", but the code tests the
string with trailing `\x7d` characters removed: the format `".%ext\x7d"`
does not end with `.%ext`, yet `ensure_extension` leaves it unchanged
instead of appending `.%ext`. -/
theorem claim_c7_counterexample :
    endsWithTok ('.' :: '%' :: 'e' :: 'x' :: 't' :: '\x7d' :: []) = false ∧
      ensure_extension ('.' :: '%' :: 'e' :: 'x' :: 't' :: '\x7d' :: []) ≠
        ('.' :: '%' :: 'e' :: 'x' :: 't' :: '\x7d' :: []) ++ extTok := by
  constructor
  · decide
  · decide

/-- C7 (amended): for every format string that does not end with `.%ext`
after discarding trailing `\x7d` characters, `ensure_extension` appends
exactly the five characters `.%ext` once; and the step is idempotent. -/
theorem claim_c7_amended_ensure_extension (format : List Char) :
    (endsWithTok (rstripChar '\x7d' format) = false →
      ensure_extension format = format ++ extTok) ∧
    ensure_extension (ensure_extension format) = ensure_extension format := by
  constructor
  · intro h
    unfold ensure_extension
    rw [if_pos]
    intro hcontra
    rw [endsWithTok, hcontra] at h
    simp at h
  · by_cases h : lastN 5 (rstripChar '\x7d' format) = extTok
    · have h1 : ensure_extension format = format := by
        unfold ensure_extension
        rw [if_neg (not_not_intro h)]
      rw [h1, h1]
    · have h1 : ensure_extension format = format ++ extTok := by
        unfold ensure_extension
        rw [if_pos (by simpa using h)]
      rw [h1]
      unfold ensure_extension
      rw [if_neg]
      simp only [rstrip_brace_append_extTok]
      rw [lastN_append_self format (by decide)]
      simp

/-- C7 witness: the amended theorem applied to the format `"%t"`. -/
theorem claim_c7_witness :
    ensure_extension ('%' :: 't' :: []) = ('%' :: 't' :: []) ++ extTok :=
  (claim_c7_amended_ensure_extension ('%' :: 't' :: [])).1 (by decide)

/-! ## Claim C6: idempotence of the artifact-collapsing cleanup -/

theorem isPfx_length_le {pat s : List Char} (h : isPfx pat s = true) :
    pat.length ≤ s.length := by
  induction pat generalizing s with
  | nil => simp
  | cons a as ih =>
    cases s with
    | nil => simp [isPfx] at h
    | cons b bs =>
      simp only [isPfx, Bool.and_eq_true] at h
      simpa using ih h.2

theorem replaceAllGo_length_le {pat rep : List Char} (hlen : rep.length ≤ pat.length) :
    ∀ fuel s, (replaceAllGo pat rep fuel s).length ≤ s.length := by
  intro fuel
  induction fuel with
  | zero => intro s; simp [replaceAllGo]
  | succ fuel ih =>
    intro s
    match s with
    | [] => simp [replaceAllGo]
    | c :: rest =>
      simp only [replaceAllGo]
      by_cases hp : isPfx pat (c :: rest) = true
      · rw [if_pos hp]
        have hple : pat.length ≤ rest.length + 1 := by simpa using isPfx_length_le hp
        have h1 := ih (rest.drop (pat.length - 1))
        rw [List.length_append, List.length_drop] at *
        simp only [List.length_cons]
        omega
      · rw [if_neg hp]
        simpa using ih rest

theorem replaceAllGo_length_lt {pat rep : List Char} (hlen : rep.length < pat.length) :
    ∀ fuel s, replaceAllGo pat rep fuel s ≠ s → (replaceAllGo pat rep fuel s).length < s.length := by
  intro fuel
  induction fuel with
  | zero => intro s h; simp [replaceAllGo] at h
  | succ fuel ih =>
    intro s h
    match s with
    | [] => simp [replaceAllGo] at h
    | c :: rest =>
      simp only [replaceAllGo] at h ⊢
      by_cases hp : isPfx pat (c :: rest) = true
      · rw [if_pos hp] at h ⊢
        have hple : pat.length ≤ rest.length + 1 := by simpa using isPfx_length_le hp
        have h1 := replaceAllGo_length_le (Nat.le_of_lt hlen) fuel (rest.drop (pat.length - 1))
        rw [List.length_append, List.length_drop] at *
        simp only [List.length_cons]
        omega
      · rw [if_neg hp] at h ⊢
        have hne : replaceAllGo pat rep fuel rest ≠ rest := by
          intro he; exact h (by rw [he])
        simpa using ih rest hne

theorem replaceAll_length_le {pat rep : List Char} (hlen : rep.length ≤ pat.length)
    (s : List Char) : (replaceAll s pat rep).length ≤ s.length := by
  unfold replaceAll
  by_cases hp : pat = []
  · rw [if_pos hp]
  · rw [if_neg hp]
    exact replaceAllGo_length_le hlen s.length s

theorem replaceAll_length_lt {pat rep : List Char} (hlen : rep.length < pat.length)
    (s : List Char) (h : replaceAll s pat rep ≠ s) : (replaceAll s pat rep).length < s.length := by
  unfold replaceAll at h ⊢
  by_cases hp : pat = []
  · rw [if_pos hp] at h; exact absurd rfl h
  · rw [if_neg hp] at h ⊢
    exact replaceAllGo_length_lt hlen s.length s h

/-- Composition preserves the "shrinks or is the identity" property. -/
theorem shrink_comp {f g : List Char → List Char}
    (hfle : ∀ s, (f s).length ≤ s.length) (hflt : ∀ s, f s ≠ s → (f s).length < s.length)
    (hgle : ∀ s, (g s).length ≤ s.length) (hglt : ∀ s, g s ≠ s → (g s).length < s.length) :
    (∀ s, (g (f s)).length ≤ s.length) ∧
      (∀ s, g (f s) ≠ s → (g (f s)).length < s.length) := by
  constructor
  · intro s; exact le_trans (hgle (f s)) (hfle s)
  · intro s h
    by_cases he : f s = s
    · rw [he] at h ⊢; exact hglt s h
    · exact lt_of_le_of_lt (hgle (f s)) (hflt s he)

/-- One collapse pass only ever shrinks, and strictly so when it changes
the string. -/
theorem collapsePass_shrinks :
    (∀ s, (collapsePass s).length ≤ s.length) ∧
      (∀ s, collapsePass s ≠ s → (collapsePass s).length < s.length) := by
  have r1le : ∀ s : List Char, (replaceAll s ['(', ')'] []).length ≤ s.length :=
    fun s => replaceAll_length_le (by decide) s
  have r1lt : ∀ s : List Char, replaceAll s ['(', ')'] [] ≠ s →
      (replaceAll s ['(', ')'] []).length < s.length :=
    fun s => replaceAll_length_lt (by decide) s
  have c2 := shrink_comp r1le r1lt
    (fun s => @replaceAll_length_le ['.', '.'] ['.'] (by decide) s)
    (fun s => replaceAll_length_lt (by decide) s)
  have c3 := shrink_comp c2.1 c2.2
    (fun s => @replaceAll_length_le ['_', '_'] ['_'] (by decide) s)
    (fun s => replaceAll_length_lt (by decide) s)
  have c4 := shrink_comp c3.1 c3.2
    (fun s => @replaceAll_length_le [' ', ' '] [' '] (by decide) s)
    (fun s => replaceAll_length_lt (by decide) s)
  have c5 := shrink_comp c4.1 c4.2
    (fun s => @replaceAll_length_le ['/', '/'] ['/'] (by decide) s)
    (fun s => replaceAll_length_lt (by decide) s)
  have c6 := shrink_comp c5.1 c5.2
    (fun s => @replaceAll_length_le [' ', '-', ' ', '-', ' '] [' ', '-', ' '] (by decide) s)
    (fun s => replaceAll_length_lt (by decide) s)
  unfold collapsePass
  exact ⟨fun s => c6.1 s, fun s h => c6.2 s h⟩

/-- With fuel exceeding the string length, the fixed-point loop indeed
reaches a fixed point of `collapsePass`. -/
theorem collapseArtifactsGo_fix :
    ∀ fuel s, s.length < fuel →
      collapsePass (collapseArtifactsGo fuel s) = collapseArtifactsGo fuel s := by
  intro fuel
  induction fuel with
  | zero => intro s h; omega
  | succ fuel ih =>
    intro s h
    simp only [collapseArtifactsGo]
    by_cases he : collapsePass s = s
    · rw [if_pos he, he]
    · rw [if_neg he]
      exact ih (collapsePass s) (lt_of_lt_of_le (collapsePass_shrinks.2 s he) (by omega))

/-- C6: the artifact-collapsing cleanup (fixed-point iteration of the
literal replacement table of `REPLACE_AFTER`) is idempotent: applying it
again to its own output returns that output unchanged. -/
theorem claim_c6_collapse_idempotent (s : List Char) :
    collapseArtifacts (collapseArtifacts s) = collapseArtifacts s := by
  have hfix : collapsePass (collapseArtifacts s) = collapseArtifacts s :=
    collapseArtifactsGo_fix (s.length + 1) s (by omega)
  show collapseArtifactsGo ((collapseArtifacts s).length + 1) (collapseArtifacts s) =
    collapseArtifacts s
  rw [collapseArtifactsGo]
  simp [hfix]

/-! ## Claim C1: the substitution scan of `path_subst` -/

theorem path_subst_go_fuel_indep (mapping : List (List Char × List Char)) :
    ∀ f1 f2 s, s.length ≤ f1 → s.length ≤ f2 →
      path_subst_go mapping f1 s = path_subst_go mapping f2 s := by
  intro f1
  induction f1 with
  | zero =>
    intro f2 s h1 _
    have : s = [] := List.length_eq_zero.mp (Nat.le_zero.mp h1)
    subst this
    cases f2 <;> simp [path_subst_go]
  | succ f1 ih =>
    intro f2 s h1 h2
    match s with
    | [] => cases f2 <;> simp [path_subst_go]
    | c :: rest =>
      match f2 with
      | 0 => simp at h2
      | f2 + 1 =>
        simp only [path_subst_go]
        by_cases hc : c = '%'
        · rw [if_pos hc, if_pos hc]
          match hm : firstMatch (c :: rest) mapping with
          | some (key, value) =>
            simp only
            have hd : (rest.drop (key.length - 1)).length ≤ rest.length := by
              rw [List.length_drop]; omega
            simp only [List.length_cons] at h1 h2
            rw [ih f2 (rest.drop (key.length - 1)) (by omega) (by omega)]
          | none =>
            simp only
            simp only [List.length_cons] at h1 h2
            rw [ih f2 rest (by omega) (by omega)]
        · rw [if_neg hc, if_neg hc]
          simp only [List.length_cons] at h1 h2
          rw [ih f2 rest (by omega) (by omega)]

theorem firstMatch_mem {s kv : List Char × List Char} :
    ∀ {mapping : List (List Char × List Char)},
      firstMatch s.1 mapping = some kv → kv ∈ mapping ∧ isPfx kv.1 s.1 = true := by
  intro mapping h
  induction mapping with
  | nil => simp [firstMatch] at h
  | cons hd tl ih =>
    simp only [firstMatch] at h
    by_cases hp : isPfx hd.1 s.1 = true
    · rw [if_pos hp] at h
      cases h
      exact ⟨List.mem_cons_self _ _, hp⟩
    · rw [if_neg hp] at h
      obtain ⟨hmem, hpfx⟩ := ih h
      exact ⟨List.mem_cons_of_mem _ hmem, hpfx⟩

/-- C1: `path_subst` scans the format left to right.  Every non-`%`
character is copied verbatim; at a `%`, the pairs of the mapping are tried
in the mapping's fixed order (`firstMatch` coincides with `List.find?`,
the first match in order): the first token matching at the current
position is consumed — the cursor advances by the token's length — and its
value is emitted, and when no token matches, the `%` itself is copied.
The hypothesis that every token is nonempty reflects the script's mappings
(all keys start with `%`); an empty token would make the Python loop spin
forever. -/
theorem claim_c1_path_subst_scan (mapping : List (List Char × List Char))
    (hk : ∀ kv ∈ mapping, kv.1 ≠ ([] : List Char)) :
    (path_subst [] mapping = []) ∧
    (∀ s, firstMatch s mapping = mapping.find? (fun kv => isPfx kv.1 s)) ∧
    (∀ c rest, c ≠ '%' → path_subst (c :: rest) mapping = c :: path_subst rest mapping) ∧
    (∀ rest key value, firstMatch ('%' :: rest) mapping = some (key, value) →
      isPfx key ('%' :: rest) = true ∧
      path_subst ('%' :: rest) mapping =
        value ++ path_subst (('%' :: rest).drop key.length) mapping) ∧
    (∀ rest, firstMatch ('%' :: rest) mapping = none →
      path_subst ('%' :: rest) mapping = '%' :: path_subst rest mapping) := by
  refine ⟨rfl, ?_, ?_, ?_, ?_⟩
  · intro s
    induction mapping with
    | nil => rfl
    | cons hd tl ih =>
      simp only [firstMatch, List.find?]
      by_cases hp : isPfx hd.1 s = true
      · rw [if_pos hp, hp]
      · rw [if_neg hp, Bool.not_eq_true] at *
        rw [hp, ih]
        intro kv hkv
        exact hk kv (List.mem_cons_of_mem _ hkv)
  · intro c rest hc
    unfold path_subst
    simp only [List.length_cons, path_subst_go, if_neg hc]
  · intro rest key value hm
    have hmem := @firstMatch_mem ('%' :: rest, []) (key, value) mapping hm
    refine ⟨hmem.2, ?_⟩
    have hkey : key ≠ [] := hk (key, value) hmem.1
    obtain ⟨k0, ktl, rfl⟩ : ∃ k0 ktl, key = k0 :: ktl := by
      cases key with
      | nil => exact absurd rfl hkey
      | cons k0 ktl => exact ⟨k0, ktl, rfl⟩
    unfold path_subst
    simp only [List.length_cons, path_subst_go, hm, List.drop_succ_cons, if_true,
      eq_self_iff_true, Nat.add_sub_cancel]
    congr 1
    exact path_subst_go_fuel_indep mapping rest.length (rest.drop ktl.length).length _
      (by rw [List.length_drop]; omega) (le_refl _)
  · intro rest hm
    unfold path_subst
    simp only [List.length_cons, path_subst_go, hm, if_true, eq_self_iff_true]

/-- C1 witness: the scan equations applied to the mapping
`[("%t", "T")]` at the input `"%t!"`. -/
theorem claim_c1_witness :
    path_subst ('%' :: 't' :: '!' :: []) [(['%', 't'], ['T'])] =
      ['T'] ++ path_subst (('%' :: 't' :: '!' :: []).drop 2) [(['%', 't'], ['T'])] :=
  ((claim_c1_path_subst_scan [(['%', 't'], ['T'])] (by decide)).2.2.2.1
    ('t' :: '!' :: []) ['%', 't'] ['T'] (by decide)).2

/-! ## Claim C2: word-case exception replacement -/

/-- C2-refuting evaluation: `replace_word("Kermit And Andrew", "And", "and")`.
The regex `\W(And)(\W|$)` finds the whole-word `" And "` once, after which
the code performs a *global* `str.replace('And', 'and')`, which also
rewrites the partial-word occurrence `"And"` inside `"Andrew"`.  The claim
(and the function's own docstring, "Regex replace on just words") requires
`"Andrew"` to remain untouched, i.e. the result `"Kermit and Andrew"`. -/
theorem claim_c2_replace_word_eval :
    replace_word ("Kermit And Andrew".data) ("And".data) ("and".data) =
        "Kermit and andrew".data ∧
      replace_word ("Kermit And Andrew".data) ("And".data) ("and".data) ≠
        "Kermit and Andrew".data := by
  constructor
  · decide
  · decide

/-! ## Claim C8: the episode-to-movie reclassification -/

/-- C8-counterexample: a guess of type `episode` *with* an episode number —
namely episode number 0, as in a `S01E00` special — is reclassified, because
the code tests Python truthiness (`not guess.get('episodeNumber')`) and `0`
is falsy.  The claim says such a guess is left unchanged. -/
theorem claim_c8_counterexample :
    guess_hacks
        { type := some ['e', 'p', 'i', 's', 'o', 'd', 'e'], episodeNumber := some 0,
          series := some ['S'], title := none, year := none } ≠
      { type := some ['e', 'p', 'i', 's', 'o', 'd', 'e'], episodeNumber := some 0,
        series := some ['S'], title := none, year := none } := by
  decide

/-- C8 (amended): a guess of type `episode` whose episode number is absent
*or zero* (Python-falsy) is reclassified: type becomes `movie`, the title
becomes the guess's series value and the year becomes the sentinel string
`1900`; a guess with a nonzero episode number, or of any other type, is
left unchanged. -/
theorem claim_c8_amended_guess_hacks (g : Guess) :
    (g.type = some ['e', 'p', 'i', 's', 'o', 'd', 'e'] → epnFalsy g.episodeNumber = true →
      guess_hacks g =
        { g with
          type := some ['m', 'o', 'v', 'i', 'e']
          title := g.series
          year := some ['1', '9', '0', '0'] }) ∧
    (g.type = some ['e', 'p', 'i', 's', 'o', 'd', 'e'] → ∀ n, g.episodeNumber = some (n + 1) →
      guess_hacks g = g) ∧
    (g.type ≠ some ['e', 'p', 'i', 's', 'o', 'd', 'e'] → guess_hacks g = g) := by
  refine ⟨?_, ?_, ?_⟩
  · intro h1 h2
    unfold guess_hacks
    rw [if_pos ⟨h1, h2⟩]
  · intro _ n h2
    unfold guess_hacks
    rw [if_neg]
    intro hcontra
    rw [h2] at hcontra
    simp [epnFalsy] at hcontra
  · intro h
    unfold guess_hacks
    rw [if_neg]
    intro hcontra
    exact h hcontra.1

/-- C8 witness: the amended theorem applied to an episode guess with no
episode number. -/
theorem claim_c8_witness :
    guess_hacks
        { type := some ['e', 'p', 'i', 's', 'o', 'd', 'e'], episodeNumber := none,
          series := some ['S'], title := none, year := none } =
      { type := some ['m', 'o', 'v', 'i', 'e'], episodeNumber := none,
        series := some ['S'], title := some ['S'], year := some ['1', '9', '0', '0'] } :=
  (claim_c8_amended_guess_hacks
    { type := some ['e', 'p', 'i', 's', 'o', 'd', 'e'], episodeNumber := none,
      series := some ['S'], title := none, year := none }).1 (by decide) (by decide)

/-! ## Claim C9: per-file error isolation and exit codes -/

theorem mainLoop_foldl (os : List FileOutcome) :
    ∀ init, os.foldl loopStep init = (init.1 || os.any outcomeMoved, init.2 || os.any outcomeRaised) := by
  induction os with
  | nil => intro init; simp
  | cons o rest ih =>
    intro init
    simp only [List.foldl_cons, ih, loopStep, List.any_cons]
    simp [Bool.or_assoc]

/-- C9: an exception raised while processing a single file only sets the
run-level error flag — the fold over per-file outcomes never stops, and the
flags over a concatenation of batches combine by disjunction — and the
process exit code is the error code iff the error flag is set, the success
code iff no error occurred and at least one file was moved, and the neutral
code otherwise. -/
theorem claim_c9_error_isolation_exit_codes (outcomes : List FileOutcome) :
    mainLoop outcomes = (outcomes.any outcomeMoved, outcomes.any outcomeRaised) ∧
    (∀ pre post : List FileOutcome,
      mainLoop (pre ++ post) =
        ((mainLoop pre).1 || (mainLoop post).1, (mainLoop pre).2 || (mainLoop post).2)) ∧
    (exit_code (mainLoop outcomes) = POSTPROCESS_ERROR ↔
      outcomes.any outcomeRaised = true) ∧
    (exit_code (mainLoop outcomes) = POSTPROCESS_SUCCESS ↔
      outcomes.any outcomeRaised = false ∧ outcomes.any outcomeMoved = true) ∧
    (exit_code (mainLoop outcomes) = POSTPROCESS_NONE ↔
      outcomes.any outcomeRaised = false ∧ outcomes.any outcomeMoved = false) := by
  have hmain : ∀ os : List FileOutcome,
      mainLoop os = (os.any outcomeMoved, os.any outcomeRaised) := by
    intro os
    unfold mainLoop
    rw [mainLoop_foldl os (false, false)]
    simp
  refine ⟨hmain outcomes, ?_, ?_, ?_, ?_⟩
  · intro pre post
    rw [hmain, hmain, hmain, List.any_append, List.any_append]
  all_goals
    rw [hmain outcomes]
    unfold exit_code POSTPROCESS_ERROR POSTPROCESS_SUCCESS POSTPROCESS_NONE
    cases outcomes.any outcomeRaised <;> cases outcomes.any outcomeMoved <;> simp

/-! ## Claim C10: domain of `strip_folders` -/

theorem trimLeftP_eq_nil_iff {p : Char → Bool} {l : List Char} :
    trimLeftP p l = [] ↔ ∀ x ∈ l, p x := by
  unfold trimLeftP
  exact List.dropWhile_eq_nil_iff

theorem trimRightP_eq_nil_iff {p : Char → Bool} {l : List Char} :
    trimRightP p l = [] ↔ ∀ x ∈ l, p x := by
  unfold trimRightP
  rw [List.reverse_eq_nil_iff, List.dropWhile_eq_nil_iff]
  constructor
  · intro h x hx
    exact h x (List.mem_reverse.mpr hx)
  · intro h x hx
    exact h x (List.mem_reverse.mp hx)

theorem pyStrip_eq_nil_iff {l : List Char} :
    pyStrip l = [] ↔ ∀ x ∈ l, isPySpace x := by
  unfold pyStrip
  rw [trimRightP_eq_nil_iff]
  constructor
  · intro h x hx
    rcases (List.mem_append.mp
      (by rw [List.takeWhile_append_dropWhile (p := isPySpace) (l := l)]; exact hx :
        x ∈ l.takeWhile isPySpace ++ l.dropWhile isPySpace)) with h1 | h2
    · exact List.mem_takeWhile_imp h1
    · exact h x h2
  · intro h x hx
    exact h x (List.dropWhile_sublist isPySpace |>.subset hx)

/-- C10: `strip_folders` raises (modelled as `none`) exactly on inputs with
no non-whitespace character — the absolute-root check `path.strip()[0]`
indexes the empty string there — and returns normally on every input
containing a non-whitespace character. -/
theorem claim_c10_strip_folders_totality (path : List Char) :
    (strip_folders path = none ↔ ∀ c ∈ path, isPySpace c = true) ∧
    ((strip_folders path).isSome = true ↔ ∃ c ∈ path, isPySpace c = false) := by
  have hnone : strip_folders path = none ↔ pyStrip path = [] := by
    unfold strip_folders
    cases h : pyStrip path with
    | nil => simp
    | cons c rest => simp
  constructor
  · rw [hnone, pyStrip_eq_nil_iff]
  · rw [Option.isSome_iff_ne_none, Ne, hnone, pyStrip_eq_nil_iff]
    constructor
    · intro h
      by_contra hcon
      push_neg at hcon
      refine h (fun x hx => ?_)
      have hx2 := hcon x hx
      cases hxx : isPySpace x
      · exact absurd hxx hx2
      · rfl
    · rintro ⟨c, hc, hf⟩ hall
      rw [hall c hc] at hf
      cases hf

/-! ## Claim C4: preview mode and the move/rename path -/

/-- C4-refuting evaluation: with preview mode *and* overwrite enabled and
the destination already existing on disk, `rename` executes `os.remove(new)`
and `shutil.move(old, new)` — the overwrite branch (lines 283-286) has no
`if not preview` guard, contradicting the script's own announcement
`*** PREVIEW MODE ON - NO CHANGES TO FILE SYSTEM ***` (line 234).  The
non-colliding branch, by contrast, performs no operation in preview. -/
theorem claim_c4_preview_overwrite_eval :
    (rename { overwrite := true, preview := true, sep := [' '] }
        { fs := ["/d/m.mkv".data], moved_src := [], moved_dst := [] }
        "/s/a.mkv".data "/d/m.mkv".data).ops =
      [FsOp.remove "/d/m.mkv".data, FsOp.move "/s/a.mkv".data "/d/m.mkv".data] ∧
    (rename { overwrite := true, preview := true, sep := [' '] }
        { fs := ["/d/m.mkv".data], moved_src := [], moved_dst := [] }
        "/s/a.mkv".data "/d/m.mkv".data).ops ≠ [] ∧
    (rename { overwrite := false, preview := true, sep := [' '] }
        { fs := [], moved_src := [], moved_dst := [] }
        "/s/a.mkv".data "/d/m.mkv".data).ops = [] := by
  refine ⟨?_, ?_, ?_⟩
  · decide
  · decide
  · decide

/-! ## Claim C5: segment cleanliness of `strip_folders` -/

theorem trimLeftP_sublist (p : Char → Bool) (l : List Char) :
    List.Sublist (trimLeftP p l) l :=
  List.dropWhile_sublist _

theorem trimRightP_sublist (p : Char → Bool) (l : List Char) :
    List.Sublist (trimRightP p l) l := by
  have h := (List.dropWhile_sublist (l := l.reverse) p).reverse
  rwa [List.reverse_reverse] at h

theorem stripChar_sublist (c : Char) (l : List Char) :
    List.Sublist (stripChar c l) l :=
  (trimRightP_sublist _ _).trans (trimLeftP_sublist _ _)

theorem pyStrip_sublist (l : List Char) : List.Sublist (pyStrip l) l :=
  (trimRightP_sublist _ _).trans (trimLeftP_sublist _ _)

theorem stripPass_sublist (l : List Char) : List.Sublist (stripPass l) l := by
  unfold stripPass
  exact ((((((stripChar_sublist _ _).trans (pyStrip_sublist _)).trans
    (stripChar_sublist _ _)).trans (pyStrip_sublist _)).trans
    (stripChar_sublist _ _)).trans (pyStrip_sublist _))

theorem stripPass_length_lt {l : List Char} (h : stripPass l ≠ l) :
    (stripPass l).length < l.length := by
  have hle := (stripPass_sublist l).length_le
  rcases Nat.lt_or_ge (stripPass l).length l.length with hlt | hge
  · exact hlt
  · exact absurd ((stripPass_sublist l).eq_of_length (le_antisymm hle hge)) h

theorem strip_all_go_sublist : ∀ fuel x, List.Sublist (strip_all_go fuel x) x := by
  intro fuel
  induction fuel with
  | zero => intro x; simp [strip_all_go]
  | succ fuel ih =>
    intro x
    simp only [strip_all_go]
    by_cases he : stripPass x = x
    · rw [if_pos he]
    · rw [if_neg he]
      exact (ih (stripPass x)).trans (stripPass_sublist x)

theorem strip_all_go_fix : ∀ fuel x, x.length < fuel →
    stripPass (strip_all_go fuel x) = strip_all_go fuel x := by
  intro fuel
  induction fuel with
  | zero => intro x h; omega
  | succ fuel ih =>
    intro x h
    simp only [strip_all_go]
    by_cases he : stripPass x = x
    · rw [if_pos he, he]
    · rw [if_neg he]
      exact ih (stripPass x) (lt_of_lt_of_le (stripPass_length_lt he) (by omega))

theorem strip_all_fix (x : List Char) : stripPass (strip_all x) = strip_all x :=
  strip_all_go_fix (x.length + 1) x (by omega)

theorem strip_all_sublist (x : List Char) : List.Sublist (strip_all x) x :=
  strip_all_go_sublist (x.length + 1) x

/-- A string whose head satisfies `p` strictly shrinks under `trimLeftP`. -/
theorem trimLeftP_fix_head {p : Char → Bool} {l : List Char} (h : trimLeftP p l = l) :
    ∀ c, l.head? = some c → p c = false := by
  intro c hc
  match l, hc with
  | c :: t, rfl =>
    by_cases hp : p c = true
    · exfalso
      unfold trimLeftP at h
      rw [List.dropWhile_cons, if_pos hp] at h
      have := congrArg List.length h
      have hle := (List.dropWhile_sublist (l := t) p).length_le
      simp at this
      omega
    · simpa using hp

theorem trimRightP_fix_last {p : Char → Bool} {l : List Char} (h : trimRightP p l = l) :
    ∀ c, l.getLast? = some c → p c = false := by
  intro c hc
  have hrev : trimLeftP p l.reverse = l.reverse := by
    have h2 := congrArg List.reverse h
    unfold trimRightP at h2
    rw [List.reverse_reverse] at h2
    exact h2
  exact trimLeftP_fix_head hrev c (by rwa [List.head?_reverse])

/-- A fixed point of a two-sided trim is a fixed point of each side. -/
theorem trim_both_fix {p : Char → Bool} {l : List Char}
    (h : trimRightP p (trimLeftP p l) = l) :
    trimLeftP p l = l ∧ trimRightP p l = l := by
  have h1 : List.Sublist (trimRightP p (trimLeftP p l)) (trimLeftP p l) :=
    trimRightP_sublist _ _
  have h2 : List.Sublist (trimLeftP p l) l := trimLeftP_sublist _ _
  have hlen : (trimLeftP p l).length = l.length := by
    have := h1.length_le
    have := h2.length_le
    rw [h] at *
    omega
  have hL : trimLeftP p l = l := h2.eq_of_length hlen
  refine ⟨hL, ?_⟩
  rw [hL] at h
  exact h

theorem pyStrip_fix_ends {l : List Char} (h : pyStrip l = l) :
    (∀ c, l.head? = some c → isPySpace c = false) ∧
      (∀ c, l.getLast? = some c → isPySpace c = false) := by
  obtain ⟨hL, hR⟩ := trim_both_fix h
  exact ⟨trimLeftP_fix_head hL, trimRightP_fix_last hR⟩

theorem stripChar_fix_ends {c0 : Char} {l : List Char} (h : stripChar c0 l = l) :
    (∀ c, l.head? = some c → (c = c0 : Bool) = false) ∧
      (∀ c, l.getLast? = some c → (c = c0 : Bool) = false) := by
  obtain ⟨hL, hR⟩ := trim_both_fix h
  exact ⟨trimLeftP_fix_head hL, trimRightP_fix_last hR⟩

/-- A fixed point of a full `stripPass` is a fixed point of every stage. -/
theorem stripPass_fix_stages {y : List Char} (h : stripPass y = y) :
    pyStrip y = y ∧ stripChar '_' y = y ∧ stripChar '.' y = y ∧ stripChar '-' y = y := by
  unfold stripPass at h
  have s1 : List.Sublist (pyStrip y) y := pyStrip_sublist y
  have s2 : List.Sublist (stripChar '_' (pyStrip y)) (pyStrip y) := stripChar_sublist _ _
  have s3 : List.Sublist (pyStrip (stripChar '_' (pyStrip y)))
      (stripChar '_' (pyStrip y)) := pyStrip_sublist _
  have s4 : List.Sublist (stripChar '.' (pyStrip (stripChar '_' (pyStrip y))))
      (pyStrip (stripChar '_' (pyStrip y))) := stripChar_sublist _ _
  have s5 : List.Sublist (pyStrip (stripChar '.' (pyStrip (stripChar '_' (pyStrip y)))))
      (stripChar '.' (pyStrip (stripChar '_' (pyStrip y)))) := pyStrip_sublist _
  have s6 : List.Sublist (stripChar '-' (pyStrip (stripChar '.' (pyStrip (stripChar '_' (pyStrip y))))))
      (pyStrip (stripChar '.' (pyStrip (stripChar '_' (pyStrip y))))) := stripChar_sublist _ _
  have l1 := s1.length_le
  have l2 := s2.length_le
  have l3 := s3.length_le
  have l4 := s4.length_le
  have l5 := s5.length_le
  have l6 := s6.length_le
  have hlen := congrArg List.length h
  have e1 : pyStrip y = y := s1.eq_of_length (by omega)
  rw [e1] at s2 l2 s3 l3 s4 l4 s5 l5 s6 l6 h hlen
  have e2 : stripChar '_' y = y := s2.eq_of_length (by omega)
  rw [e2] at s3 l3 s4 l4 s5 l5 s6 l6 h hlen
  rw [e1] at s4 l4 s5 l5 s6 l6 h hlen
  have e4 : stripChar '.' y = y := s4.eq_of_length (by omega)
  rw [e4] at s5 l5 s6 l6 h hlen
  rw [e1] at s6 l6 h hlen
  exact ⟨e1, e2, e4, h⟩

/-- Any output of `strip_all` is a clean segment: it neither starts nor
ends with a whitespace, `_`, `.` or `-` character. -/
theorem strip_all_clean (x : List Char) : cleanSeg (strip_all x) = true := by
  obtain ⟨e1, e2, e4, e6⟩ := stripPass_fix_stages (strip_all_fix x)
  unfold cleanSeg
  rw [Bool.and_eq_true]
  constructor
  · cases hh : (strip_all x).head? with
    | none => rfl
    | some c =>
      have h1 := (pyStrip_fix_ends e1).1 c hh
      have h2 := (stripChar_fix_ends e2).1 c hh
      have h4 := (stripChar_fix_ends e4).1 c hh
      have h6 := (stripChar_fix_ends e6).1 c hh
      simp only [isStripChar, h1]
      simp only [decide_eq_false_iff_not] at h2 h4 h6
      simp [h2, h4, h6]
  · cases hh : (strip_all x).getLast? with
    | none => rfl
    | some c =>
      have h1 := (pyStrip_fix_ends e1).2 c hh
      have h2 := (stripChar_fix_ends e2).2 c hh
      have h4 := (stripChar_fix_ends e4).2 c hh
      have h6 := (stripChar_fix_ends e6).2 c hh
      simp only [isStripChar, h1]
      simp only [decide_eq_false_iff_not] at h2 h4 h6
      simp [h2, h4, h6]

theorem splitOnSlash_cons_slash (s : List Char) :
    splitOnSlash ('/' :: s) = [] :: splitOnSlash s := by
  simp [splitOnSlash]

theorem splitOnSlash_ne_nil (s : List Char) : splitOnSlash s ≠ [] := by
  cases s with
  | nil => simp [splitOnSlash]
  | cons c rest =>
    simp only [splitOnSlash]
    by_cases hc : c = '/'
    · rw [if_pos hc]; simp
    · rw [if_neg hc]
      cases h : splitOnSlash rest <;> simp

theorem splitOnSlash_no_slash_mem :
    ∀ s : List Char, ∀ seg ∈ splitOnSlash s, ∀ c ∈ seg, c ≠ '/' := by
  intro s
  induction s with
  | nil =>
    intro seg hseg c hc
    simp only [splitOnSlash, List.mem_singleton] at hseg
    subst hseg
    simp at hc
  | cons a rest ih =>
    intro seg hseg c hc
    simp only [splitOnSlash] at hseg
    by_cases ha : a = '/'
    · rw [if_pos ha] at hseg
      rcases List.mem_cons.mp hseg with h1 | h2
      · subst h1; simp at hc
      · exact ih seg h2 c hc
    · rw [if_neg ha] at hseg
      cases hsp : splitOnSlash rest with
      | nil => exact absurd hsp (splitOnSlash_ne_nil rest)
      | cons s0 ss =>
        rw [hsp] at hseg
        rcases List.mem_cons.mp hseg with h1 | h2
        · subst h1
          rcases List.mem_cons.mp hc with hc1 | hc2
          · subst hc1; exact ha
          · exact ih s0 (by rw [hsp]; exact List.mem_cons_self _ _) c hc2
        · exact ih seg (by rw [hsp]; exact List.mem_cons_of_mem _ h2) c hc

theorem splitOnSlash_of_no_slash :
    ∀ x : List Char, (∀ c ∈ x, c ≠ '/') → splitOnSlash x = [x] := by
  intro x
  induction x with
  | nil => intro _; rfl
  | cons a rest ih =>
    intro h
    simp only [splitOnSlash]
    rw [if_neg (h a (List.mem_cons_self _ _)),
      ih (fun c hc => h c (List.mem_cons_of_mem _ hc))]

theorem splitOnSlash_append_left :
    ∀ x s : List Char, (∀ c ∈ x, c ≠ '/') →
      ∃ hd tl, splitOnSlash s = hd :: tl ∧ splitOnSlash (x ++ s) = (x ++ hd) :: tl := by
  intro x
  induction x with
  | nil =>
    intro s _
    cases hsp : splitOnSlash s with
    | nil => exact absurd hsp (splitOnSlash_ne_nil s)
    | cons h t => exact ⟨h, t, rfl, by simpa using hsp⟩
  | cons a rest ih =>
    intro s h
    obtain ⟨hd, tl, h1, h2⟩ := ih s (fun c hc => h c (List.mem_cons_of_mem _ hc))
    refine ⟨hd, tl, h1, ?_⟩
    simp only [List.cons_append, splitOnSlash]
    rw [if_neg (h a (List.mem_cons_self _ _))]
    simp only [List.append_eq]
    rw [h2]

theorem splitOnSlash_join :
    ∀ l : List (List Char), l ≠ [] → (∀ x ∈ l, ∀ c ∈ x, c ≠ '/') →
      splitOnSlash (joinSlash l) = l := by
  intro l
  induction l with
  | nil => intro h _; exact absurd rfl h
  | cons x xs ih =>
    intro _ h
    cases xs with
    | nil =>
      show splitOnSlash (joinSlash [x]) = [x]
      unfold joinSlash
      exact splitOnSlash_of_no_slash x (h x (List.mem_cons_self _ _))
    | cons y ys =>
      have hx : ∀ c ∈ x, c ≠ '/' := h x (List.mem_cons_self _ _)
      have hjoin : joinSlash (x :: y :: ys) = x ++ '/' :: joinSlash (y :: ys) := rfl
      rw [hjoin]
      obtain ⟨hd, tl, h1, h2⟩ := splitOnSlash_append_left x ('/' :: joinSlash (y :: ys)) hx
      have hsp : splitOnSlash ('/' :: joinSlash (y :: ys)) =
          [] :: splitOnSlash (joinSlash (y :: ys)) := by
        simp [splitOnSlash]
      rw [hsp, ih (by simp) (fun z hz => h z (List.mem_cons_of_mem _ hz))] at h1
      cases h1
      rw [h2, List.append_nil]

theorem splitOnSlash_replicate :
    ∀ k (s : List Char),
      splitOnSlash (List.replicate k '/' ++ s) = List.replicate k [] ++ splitOnSlash s := by
  intro k
  induction k with
  | zero => intro s; simp
  | succ k ih =>
    intro s
    rw [List.replicate_succ '/' k, List.cons_append, List.replicate_succ ([] : List Char) k,
      splitOnSlash_cons_slash, ih s, List.cons_append]

theorem cleanSeg_not_dot {s : List Char} (h : cleanSeg s = true) :
    s ≠ ['.'] ∧ s ≠ ['.', '.'] := by
  constructor
  · intro he; subst he; simp [cleanSeg, isStripChar] at h
  · intro he; subst he; simp [cleanSeg, isStripChar] at h

theorem normStep_fold_eq (initialSlashes : Nat) :
    ∀ (comps acc : List (List Char)), (∀ c ∈ comps, c ≠ ['.', '.']) →
      comps.foldl (normStep initialSlashes) acc =
        acc ++ comps.filter (fun c => decide ¬(c = [] ∨ c = ['.'])) := by
  intro comps
  induction comps with
  | nil => intro acc _; simp
  | cons c cs ih =>
    intro acc h
    simp only [List.foldl_cons, List.filter_cons, normStep]
    by_cases h1 : c = [] ∨ c = ['.']
    · rw [if_pos h1, ih _ (fun d hd => h d (List.mem_cons_of_mem _ hd)),
        if_neg (by simp only [decide_eq_true_eq]; exact not_not_intro h1)]
    · rw [if_neg h1, if_pos (Or.inl (h c (List.mem_cons_self _ _))),
        ih _ (fun d hd => h d (List.mem_cons_of_mem _ hd)),
        if_pos (by simp only [decide_eq_true_eq]; exact h1)]
      simp

/-- Explicit form of `normpath` on a nonempty path whose components contain
no `..`. -/
theorem normpath_eq_of_no_dotdot (j : List Char) (hj : j ≠ [])
    (hnodd : ∀ c ∈ splitOnSlash j, c ≠ ['.', '.']) :
    normpath j =
      (if List.replicate (normSlashes j) '/' ++
          joinSlash ((splitOnSlash j).filter (fun c => decide ¬(c = [] ∨ c = ['.']))) = []
       then ['.']
       else List.replicate (normSlashes j) '/' ++
          joinSlash ((splitOnSlash j).filter (fun c => decide ¬(c = [] ∨ c = ['.'])))) := by
  unfold normpath
  rw [if_neg hj]
  simp only [normStep_fold_eq (normSlashes j) (splitOnSlash j) [] hnodd, List.nil_append]

/-- Segments of `normpath j`, when every segment of `j` is clean, are clean
— unless the result is the special `.` returned for a vanishing path. -/
theorem normpath_segments_clean (j : List Char)
    (hclean : ∀ seg ∈ splitOnSlash j, cleanSeg seg = true) :
    ∀ seg ∈ splitOnSlash (normpath j), normpath j = ['.'] ∨ cleanSeg seg = true := by
  intro seg hseg
  by_cases hj : j = []
  · left; rw [hj]; rfl
  have hnodd : ∀ c ∈ splitOnSlash j, c ≠ ['.', '.'] :=
    fun c hc => (cleanSeg_not_dot (hclean c hc)).2
  have heq := normpath_eq_of_no_dotdot j hj hnodd
  set flt := (splitOnSlash j).filter (fun c => decide ¬(c = [] ∨ c = ['.'])) with hfltdef
  by_cases hres : List.replicate (normSlashes j) '/' ++ joinSlash flt = []
  · left; rw [heq, if_pos hres]
  right
  rw [heq, if_neg hres] at hseg
  have hfltmem : ∀ x ∈ flt, cleanSeg x = true := by
    intro x hx
    exact hclean x (List.mem_of_mem_filter hx)
  have hfltslash : ∀ x ∈ flt, ∀ c ∈ x, c ≠ '/' := by
    intro x hx
    exact splitOnSlash_no_slash_mem j x (List.mem_of_mem_filter hx)
  by_cases hfe : flt = []
  · rw [hfe] at hseg
    have : joinSlash ([] : List (List Char)) = [] := rfl
    rw [this, List.append_nil] at hseg
    have h2 : splitOnSlash (List.replicate (normSlashes j) '/') =
        splitOnSlash (List.replicate (normSlashes j) '/' ++ []) := by rw [List.append_nil]
    rw [h2, splitOnSlash_replicate (normSlashes j) []] at hseg
    rcases List.mem_append.mp hseg with h3 | h3
    · rw [List.eq_of_mem_replicate h3]; rfl
    · have : seg = [] := by
        simp only [splitOnSlash, List.mem_singleton] at h3
        exact h3
      rw [this]; rfl
  · rw [splitOnSlash_replicate (normSlashes j) (joinSlash flt),
      splitOnSlash_join flt hfe hfltslash] at hseg
    rcases List.mem_append.mp hseg with h3 | h3
    · rw [List.eq_of_mem_replicate h3]; rfl
    · exact hfltmem seg h3

/-- When `j` starts with a slash (and has no `..` component), so does
`normpath j`. -/
theorem normpath_head_slash (j : List Char) (h : j.head? = some '/')
    (hnodd : ∀ c ∈ splitOnSlash j, c ≠ ['.', '.']) :
    (normpath j).head? = some '/' := by
  have hj : j ≠ [] := by intro he; rw [he] at h; simp at h
  have hk : 1 ≤ normSlashes j := by
    unfold normSlashes
    have hpfx : isPfx ['/'] j = true := by
      cases j with
      | nil => simp at h
      | cons a t =>
        simp only [List.head?] at h
        injection h with h2
        subst h2
        simp [isPfx]
    rw [if_pos hpfx]
    by_cases h2 : isPfx ['/', '/'] j = true ∧ ¬ isPfx ['/', '/', '/'] j = true
    · rw [if_pos h2]; omega
    · rw [if_neg h2]
  rw [normpath_eq_of_no_dotdot j hj hnodd]
  obtain ⟨k, hk2⟩ : ∃ k, normSlashes j = k + 1 := ⟨normSlashes j - 1, by omega⟩
  rw [hk2, List.replicate_succ, if_neg (by simp)]
  rfl

/-- Unfolding rule for a right trim over a cons cell. -/
theorem trimRightP_cons (p : Char → Bool) (a : Char) (t : List Char) :
    trimRightP p (a :: t) =
      if trimRightP p t = [] then (if p a then [] else [a]) else a :: trimRightP p t := by
  by_cases h2 : trimRightP p t = []
  · rw [if_pos h2]
    have h : List.dropWhile p t.reverse = [] := by
      unfold trimRightP at h2
      have h3 := congrArg List.reverse h2
      rwa [List.reverse_reverse] at h3
    unfold trimRightP
    rw [List.reverse_cons, List.dropWhile_append, if_pos (by rw [h]; rfl)]
    by_cases hp : p a = true
    · simp [List.dropWhile, hp]
    · simp only [Bool.not_eq_true] at hp
      simp [List.dropWhile, hp]
  · rw [if_neg h2]
    have h : List.dropWhile p t.reverse ≠ [] := by
      intro he
      apply h2
      unfold trimRightP
      rw [he]
      rfl
    unfold trimRightP
    rw [List.reverse_cons, List.dropWhile_append, if_neg (by simp [List.isEmpty_iff, h]),
      List.reverse_append]
    rfl

theorem trimRightP_head? {p : Char → Bool} {l : List Char} (h : trimRightP p l ≠ []) :
    (trimRightP p l).head? = l.head? := by
  cases l with
  | nil => exact absurd rfl h
  | cons a t =>
    rw [trimRightP_cons] at h ⊢
    by_cases h2 : trimRightP p t = []
    · rw [if_pos h2] at h ⊢
      by_cases hp : p a = true
      · rw [if_pos hp] at h; exact absurd rfl h
      · rw [if_neg hp]; rfl
    · rw [if_neg h2]; rfl

theorem pyStrip_head_slash {path : List Char} (h : path.head? = some '/') :
    (pyStrip path).head? = some '/' := by
  obtain ⟨t, rfl⟩ : ∃ t, path = '/' :: t := by
    cases path with
    | nil => simp at h
    | cons a t =>
      simp only [List.head?] at h
      injection h with h2
      subst h2
      exact ⟨t, rfl⟩
  have hL : trimLeftP isPySpace ('/' :: t) = '/' :: t := by
    unfold trimLeftP
    exact dropWhile_cons_neg (by decide)
  unfold pyStrip
  rw [hL]
  have hne : trimRightP isPySpace ('/' :: t) ≠ [] := by
    intro he
    have := trimRightP_eq_nil_iff.mp he '/' (List.mem_cons_self _ _)
    simp [isPySpace] at this
  rw [trimRightP_head? hne]
  rfl

theorem strip_all_nil : strip_all [] = [] := by decide

/-- C5-counterexample: on the input `"."` the function returns `"."` —
`os.path.normpath('')` turns the fully-stripped path into the single
segment `.`, which begins (and ends) with a strip character, contradicting
"every segment of the path returned ... has no leading or trailing
`.`, `_`, `-`, or whitespace character". -/
theorem claim_c5_counterexample :
    strip_folders ['.'] = some ['.'] ∧
      ¬ (∀ seg ∈ splitOnSlash ['.'], cleanSeg seg = true) := by
  constructor
  · decide
  · decide

/-- C5 (amended): whenever `strip_folders` returns (the input has some
non-whitespace character, cf. C10), every `/`-separated segment of the
result neither starts nor ends with `.`, `_`, `-` or whitespace — except
that the result may be exactly the POSIX `.` returned when the whole path
strips away — and a path beginning with `/` keeps its leading `/`. -/
theorem claim_c5_amended_strip_folders (path r : List Char)
    (h : strip_folders path = some r) :
    (∀ seg ∈ splitOnSlash r, r = ['.'] ∨ cleanSeg seg = true) ∧
    (path.head? = some '/' → r.head? = some '/') := by
  unfold strip_folders at h
  cases hps : pyStrip path with
  | nil => rw [hps] at h; cases h
  | cons c crest =>
    rw [hps] at h
    simp only [Option.some.injEq] at h
    set f0 := splitOnSlash (stripChar '/' path) with hf0
    set f : List (List Char) := if c = '/' ∨ c = '\\' then [] :: f0 else f0 with hf
    set segs := f.map strip_all with hsegs
    have hclean : ∀ s ∈ segs, cleanSeg s = true := by
      intro s hs
      obtain ⟨y, _, rfl⟩ := List.mem_map.mp hs
      exact strip_all_clean y
    have hslash : ∀ s ∈ segs, ∀ ch ∈ s, ch ≠ '/' := by
      intro s hs ch hch
      obtain ⟨y, hy, rfl⟩ := List.mem_map.mp hs
      have hy0 : y = [] ∨ y ∈ f0 := by
        rw [hf] at hy
        by_cases hc : c = '/' ∨ c = '\\'
        · rw [if_pos hc] at hy
          rcases List.mem_cons.mp hy with h1 | h2
          · exact Or.inl h1
          · exact Or.inr h2
        · rw [if_neg hc] at hy
          exact Or.inr hy
      rcases hy0 with rfl | hyf
      · rw [strip_all_nil] at hch
        simp at hch
      · exact splitOnSlash_no_slash_mem (stripChar '/' path) y hyf ch
          ((strip_all_sublist y).subset hch)
    have hsegs_ne : segs ≠ [] := by
      rw [hsegs, hf]
      by_cases hc : c = '/' ∨ c = '\\'
      · rw [if_pos hc]; simp
      · rw [if_neg hc]
        simp only [ne_eq, List.map_eq_nil_iff]
        exact splitOnSlash_ne_nil _
    have hsplitj : splitOnSlash (joinSlash segs) = segs :=
      splitOnSlash_join segs hsegs_ne hslash
    have hcleanj : ∀ seg ∈ splitOnSlash (joinSlash segs), cleanSeg seg = true := by
      rw [hsplitj]; exact hclean
    constructor
    · intro seg hseg
      rw [← h] at hseg ⊢
      exact normpath_segments_clean (joinSlash segs) hcleanj seg hseg
    · intro hhead
      have hc : c = '/' := by
        have := pyStrip_head_slash hhead
        rw [hps] at this
        simpa using this
      have hfval : f = [] :: f0 := by
        rw [hf, if_pos (Or.inl hc)]
      have hsegsval : segs = [] :: f0.map strip_all := by
        rw [hsegs, hfval, List.map_cons, strip_all_nil]
      obtain ⟨y, ys, hys⟩ : ∃ y ys, f0.map strip_all = y :: ys := by
        cases hm : f0.map strip_all with
        | nil =>
          exfalso
          rw [List.map_eq_nil_iff] at hm
          exact splitOnSlash_ne_nil _ hm
        | cons y ys => exact ⟨y, ys, rfl⟩
      have hjhead : (joinSlash segs).head? = some '/' := by
        rw [hsegsval, hys]
        rfl
      have hnodd : ∀ cc ∈ splitOnSlash (joinSlash segs), cc ≠ ['.', '.'] :=
        fun cc hcc => (cleanSeg_not_dot (hcleanj cc hcc)).2
      rw [← h]
      exact normpath_head_slash (joinSlash segs) hjhead hnodd

/-- C5 witness: the amended theorem applied to the path `"/a._/.b-"`, whose
result is `"/a/b"`. -/
theorem claim_c5_witness :
    (∀ seg ∈ splitOnSlash ("/a/b".data),
      "/a/b".data = ['.'] ∨ cleanSeg seg = true) ∧
    (("/a._/.b-".data).head? = some '/' → ("/a/b".data).head? = some '/') :=
  claim_c5_amended_strip_folders "/a._/.b-".data "/a/b".data (by decide)

/-! ## Claim C3: duplicate resolution -/

theorem natReprGo_fuel (n : Nat) :
    ∀ fuel, n ≤ fuel →
      natReprGo fuel n =
        if n < 10 then [Nat.digitChar n] else natRepr (n / 10) ++ [Nat.digitChar (n % 10)] := by
  induction n using Nat.strong_induction_on with
  | _ n ih =>
    intro fuel hfuel
    match fuel with
    | 0 =>
      have hn : n = 0 := by omega
      subst hn
      simp [natReprGo]
    | fuel + 1 =>
      simp only [natReprGo]
      by_cases h10 : n < 10
      · rw [if_pos h10, if_pos h10]
      · rw [if_neg h10, if_neg h10]
        have hdiv : n / 10 < n := Nat.div_lt_self (by omega) (by omega)
        rw [ih (n / 10) hdiv fuel (by omega)]
        conv_rhs => rw [show natRepr (n / 10) = natReprGo (n / 10) (n / 10) from rfl,
          ih (n / 10) hdiv (n / 10) (le_refl _)]

theorem natRepr_eq (n : Nat) :
    natRepr n =
      if n < 10 then [Nat.digitChar n] else natRepr (n / 10) ++ [Nat.digitChar (n % 10)] :=
  natReprGo_fuel n n (le_refl _)

theorem natRepr_ne_nil (n : Nat) : natRepr n ≠ [] := by
  rw [natRepr_eq]
  by_cases h : n < 10
  · rw [if_pos h]; simp
  · rw [if_neg h]; simp

theorem digitChar_inj : ∀ a, a < 10 → ∀ b, b < 10 → Nat.digitChar a = Nat.digitChar b → a = b := by
  decide

theorem natRepr_inj : ∀ a b, natRepr a = natRepr b → a = b := by
  intro a
  induction a using Nat.strong_induction_on with
  | _ a ih =>
    intro b h
    rw [natRepr_eq a, natRepr_eq b] at h
    by_cases ha : a < 10 <;> by_cases hb : b < 10
    · rw [if_pos ha, if_pos hb] at h
      exact digitChar_inj a ha b hb (by injection h)
    · rw [if_pos ha, if_neg hb] at h
      have := congrArg List.length h
      have hne := natRepr_ne_nil (b / 10)
      simp only [List.length_singleton, List.length_append, List.length_cons,
        List.length_nil] at this
      cases hnr : natRepr (b / 10) with
      | nil => exact absurd hnr hne
      | cons x xs => rw [hnr] at this; simp at this
    · rw [if_neg ha, if_pos hb] at h
      have := congrArg List.length h
      have hne := natRepr_ne_nil (a / 10)
      cases hnr : natRepr (a / 10) with
      | nil => exact absurd hnr hne
      | cons x xs => rw [hnr] at this; simp at this
    · rw [if_neg ha, if_neg hb] at h
      have hlen : (natRepr (a / 10)).length = (natRepr (b / 10)).length := by
        have := congrArg List.length h
        simp at this
        omega
      obtain ⟨h1, h2⟩ := List.append_inj h hlen
      have hd : a % 10 = b % 10 :=
        digitChar_inj (a % 10) (Nat.mod_lt _ (by omega)) (b % 10) (Nat.mod_lt _ (by omega))
          (by injection h2)
      have hq : a / 10 = b / 10 :=
        ih (a / 10) (Nat.div_lt_self (by omega) (by omega)) (b / 10) h1
      omega

theorem natRepr_digit : ∀ n, ∀ c ∈ natRepr n, ∃ d, d < 10 ∧ c = Nat.digitChar d := by
  intro n
  induction n using Nat.strong_induction_on with
  | _ n ih =>
    intro c hc
    rw [natRepr_eq] at hc
    by_cases h : n < 10
    · rw [if_pos h] at hc
      simp only [List.mem_singleton] at hc
      exact ⟨n, h, hc⟩
    · rw [if_neg h] at hc
      rcases List.mem_append.mp hc with h1 | h2
      · exact ih (n / 10) (Nat.div_lt_self (by omega) (by omega)) c h1
      · simp only [List.mem_singleton] at h2
        exact ⟨n % 10, Nat.mod_lt _ (by omega), h2⟩

theorem natRepr_no_slash (n : Nat) : ∀ c ∈ natRepr n, c ≠ '/' := by
  intro c hc
  obtain ⟨d, hd, rfl⟩ := natRepr_digit n c hc
  have hall : ∀ d, d < 10 → Nat.digitChar d ≠ '/' := by decide
  exact hall d hd

theorem rfindIdx_none {c : Char} : ∀ {p : List Char}, rfindIdx c p = none → c ∉ p := by
  intro p
  induction p with
  | nil => intro _; simp
  | cons a rest ih =>
    intro h
    simp only [rfindIdx] at h
    cases hr : rfindIdx c rest with
    | some j => rw [hr] at h; cases h
    | none =>
      rw [hr] at h
      by_cases ha : a = c
      · rw [if_pos ha] at h; cases h
      · rw [if_neg ha] at h
        simp only [List.mem_cons, not_or]
        exact ⟨fun he => ha he.symm, ih hr⟩

theorem rfindIdx_none_of_not_mem {c : Char} : ∀ {p : List Char}, c ∉ p → rfindIdx c p = none := by
  intro p
  induction p with
  | nil => intro _; rfl
  | cons a rest ih =>
    intro h
    simp only [List.mem_cons, not_or] at h
    simp only [rfindIdx, ih h.2]
    rw [if_neg (fun he => h.1 he.symm)]

theorem rfindIdx_lt_length {c : Char} :
    ∀ {p : List Char} {j : Nat}, rfindIdx c p = some j → j < p.length := by
  intro p
  induction p with
  | nil => intro j h; cases h
  | cons a rest ih =>
    intro j h
    simp only [rfindIdx] at h
    cases hr : rfindIdx c rest with
    | some j2 =>
      rw [hr] at h
      injection h with h2
      subst h2
      have := ih hr
      simp only [List.length_cons]
      omega
    | none =>
      rw [hr] at h
      by_cases ha : a = c
      · rw [if_pos ha] at h
        injection h with h2
        subst h2
        simp
      · rw [if_neg ha] at h; cases h

theorem rfindIdx_drop {c : Char} :
    ∀ {p : List Char} {j : Nat}, rfindIdx c p = some j → c ∉ p.drop (j + 1) := by
  intro p
  induction p with
  | nil => intro j h; cases h
  | cons a rest ih =>
    intro j h
    simp only [rfindIdx] at h
    cases hr : rfindIdx c rest with
    | some j2 =>
      rw [hr] at h
      injection h with h2
      subst h2
      simpa using ih hr
    | none =>
      rw [hr] at h
      by_cases ha : a = c
      · rw [if_pos ha] at h
        injection h with h2
        subst h2
        simpa using rfindIdx_none hr
      · rw [if_neg ha] at h; cases h

theorem rfindIdx_append_right_none {c : Char} (a b : List Char) (h : c ∉ b) :
    rfindIdx c (a ++ b) = rfindIdx c a := by
  induction a with
  | nil => simpa using rfindIdx_none_of_not_mem h
  | cons x a2 ih =>
    simp only [List.cons_append, rfindIdx]
    rw [show a2.append b = a2 ++ b from rfl, ih]

theorem splitext_append (p : List Char) : (splitext p).1 ++ (splitext p).2 = p := by
  unfold splitext
  cases h : rfindIdx '.' p with
  | none => simp
  | some d =>
    simp only
    by_cases hcond :
        (match rfindIdx '/' p with | none => 0 | some s => s + 1) ≤ d ∧
          ((p.drop (match rfindIdx '/' p with | none => 0 | some s => s + 1)).take
            (d - (match rfindIdx '/' p with | none => 0 | some s => s + 1))).any
            (fun ch => ch ≠ '.')
    · rw [if_pos hcond]
      exact List.take_append_drop d p
    · rw [if_neg hcond]
      simp

theorem splitext_ext_no_slash (p : List Char) : ∀ ch ∈ (splitext p).2, ch ≠ '/' := by
  unfold splitext
  cases h : rfindIdx '.' p with
  | none => simp
  | some d =>
    simp only
    by_cases hcond :
        (match rfindIdx '/' p with | none => 0 | some s => s + 1) ≤ d ∧
          ((p.drop (match rfindIdx '/' p with | none => 0 | some s => s + 1)).take
            (d - (match rfindIdx '/' p with | none => 0 | some s => s + 1))).any
            (fun ch => ch ≠ '.')
    · rw [if_pos hcond]
      intro ch hch he
      subst he
      cases hs : rfindIdx '/' p with
      | none =>
        exact rfindIdx_none hs ((List.drop_subset d p) hch)
      | some s =>
        rw [hs] at hcond
        have hle : s + 1 ≤ d := hcond.1
        have hdd : p.drop d = (p.drop (s + 1)).drop (d - (s + 1)) := by
          rw [List.drop_drop]
          congr 1
          omega
        rw [hdd] at hch
        exact rfindIdx_drop hs ((List.drop_subset _ _) hch)
    · rw [if_neg hcond]
      simp

theorem dirname_append_no_slash (a b : List Char) (h : ∀ ch ∈ b, ch ≠ '/') :
    dirname (a ++ b) = dirname a := by
  have hmem : '/' ∉ b := fun hm => h '/' hm rfl
  unfold dirname
  rw [rfindIdx_append_right_none a b hmem]
  cases hs : rfindIdx '/' a with
  | none => simp
  | some s =>
    simp only
    rw [List.take_append_of_le_length (rfindIdx_lt_length hs)]

theorem append_right_cancel_chars {a b t : List Char} (h : a ++ t = b ++ t) : a = b := by
  have hl : a.length = b.length := by
    have h2 := congrArg List.length h
    simp only [List.length_append] at h2
    omega
  exact List.append_inj_left h hl

theorem candName_length_gt (f e sep : List Char) (k : Nat) :
    (f ++ e).length < (candName f e sep k).length := by
  unfold candName
  have h1 : 1 ≤ (natRepr k).length := List.length_pos.mpr (natRepr_ne_nil k)
  simp only [List.length_append, List.length_singleton]
  omega

theorem candName_inj {f e sep : List Char} {j k : Nat}
    (h : candName f e sep j = candName f e sep k) : j = k := by
  unfold candName at h
  simp only [List.append_assoc] at h
  have h1 := List.append_cancel_left (List.append_cancel_left (List.append_cancel_left h))
  have h2 : natRepr j ++ ([')'] ++ e) = natRepr k ++ ([')'] ++ e) := by
    simpa using h1
  exact natRepr_inj j k (append_right_cancel_chars h2)

theorem dirname_candName (f e sep : List Char) (k : Nat)
    (hsep : ∀ c ∈ sep, c ≠ '/') (he : ∀ c ∈ e, c ≠ '/') :
    dirname (candName f e sep k) = dirname f := by
  unfold candName
  have hassoc : f ++ sep ++ ['('] ++ natRepr k ++ [')'] ++ e =
      f ++ (sep ++ ['('] ++ natRepr k ++ [')'] ++ e) := by
    simp [List.append_assoc]
  rw [hassoc]
  apply dirname_append_no_slash
  intro ch hch
  simp only [List.append_assoc, List.mem_append, List.mem_singleton] at hch
  rcases hch with h1 | h2 | h3 | h4 | h5
  · exact hsep ch h1
  · subst h2; decide
  · exact natRepr_no_slash k ch h3
  · subst h4; decide
  · exact he ch h5

theorem dirname_length_le (p : List Char) : (dirname p).length ≤ p.length := by
  unfold dirname
  have htake : ∀ n, (p.take n).length ≤ p.length := fun n => (List.take_sublist n p).length_le
  cases hs : rfindIdx '/' p with
  | none =>
    simp only
    by_cases hc : p.take 0 ≠ [] ∧ p.take 0 ≠ List.replicate (p.take 0).length '/'
    · rw [if_pos hc]
      exact le_trans (trimRightP_sublist _ _).length_le (htake 0)
    · rw [if_neg hc]
      exact htake 0
  | some s =>
    simp only
    by_cases hc : p.take (s + 1) ≠ [] ∧
        p.take (s + 1) ≠ List.replicate (p.take (s + 1)).length '/'
    · rw [if_pos hc]
      exact le_trans (trimRightP_sublist _ _).length_le (htake (s + 1))
    · rw [if_neg hc]
      exact htake (s + 1)

theorem expectedFinals_succ (p sep : List Char) (n : Nat) :
    expectedFinals p sep (n + 1) = expectedFinals p sep n ++ [nextDest p sep n] := by
  cases n with
  | zero => simp [expectedFinals, nextDest]
  | succ m =>
    show p :: (List.range (m + 1)).map _ = (p :: (List.range m).map _) ++ [nextDest p sep (m + 1)]
    rw [List.range_succ, List.map_append]
    simp [nextDest]

theorem expectedFinals_eq_map (p sep : List Char) (n : Nat) :
    expectedFinals p sep n = (List.range n).map (nextDest p sep) := by
  induction n with
  | zero => rfl
  | succ m ih =>
    rw [expectedFinals_succ, ih, List.range_succ, List.map_append]
    rfl

theorem expectedFinals_length (p sep : List Char) (n : Nat) :
    (expectedFinals p sep n).length = n := by
  rw [expectedFinals_eq_map]
  simp

theorem mem_expectedFinals {p sep x : List Char} {n : Nat} :
    x ∈ expectedFinals p sep n ↔
      (1 ≤ n ∧ x = p) ∨
        ∃ m, 2 ≤ m ∧ m ≤ n ∧ x = candName (splitext p).1 (splitext p).2 sep m := by
  cases n with
  | zero =>
    simp only [expectedFinals, List.not_mem_nil, false_iff]
    push_neg
    constructor
    · intro h; omega
    · intro m h1 h2; omega
  | succ k =>
    simp only [expectedFinals, List.mem_cons, List.mem_map, List.mem_range]
    constructor
    · rintro (rfl | ⟨i, hi, rfl⟩)
      · exact Or.inl ⟨by omega, rfl⟩
      · exact Or.inr ⟨i + 2, by omega, by omega, rfl⟩
    · rintro (⟨_, rfl⟩ | ⟨m, hm2, hmn, rfl⟩)
      · exact Or.inl rfl
      · exact Or.inr ⟨m - 2, by omega, by congr 1; omega⟩

theorem expectedFinals_mono {p sep x : List Char} {n : Nat}
    (h : x ∈ expectedFinals p sep n) : x ∈ expectedFinals p sep (n + 1) := by
  rw [expectedFinals_succ]
  exact List.mem_append_left _ h

theorem cand_ne_p {p sep : List Char} (k : Nat) :
    candName (splitext p).1 (splitext p).2 sep k ≠ p := by
  intro h
  have h1 := candName_length_gt (splitext p).1 (splitext p).2 sep k
  rw [splitext_append p, h] at h1
  omega

theorem cand_notin_expectedFinals {p sep : List Char} {m n : Nat}
    (_hm : 2 ≤ m) (hgt : n < m) :
    candName (splitext p).1 (splitext p).2 sep m ∉ expectedFinals p sep n := by
  intro hmem
  rw [mem_expectedFinals] at hmem
  rcases hmem with ⟨_, heq⟩ | ⟨m2, _, hm2n, heq⟩
  · exact cand_ne_p m heq
  · have := candName_inj heq
    omega

theorem expectedFinals_nodup (p sep : List Char) (n : Nat) :
    (expectedFinals p sep n).Nodup := by
  cases n with
  | zero => exact List.nodup_nil
  | succ k =>
    show (p :: (List.range k).map _).Nodup
    rw [List.nodup_cons]
    constructor
    · intro hmem
      obtain ⟨i, _, heq⟩ := List.mem_map.mp hmem
      exact cand_ne_p (i + 2) heq
    · refine (List.nodup_range k).map ?_
      intro a b hab
      have := candName_inj hab
      omega

theorem contains_iff_mem {l : List (List Char)} {x : List Char} :
    l.contains x = true ↔ x ∈ l := by
  simp [List.elem_iff]

theorem isBusy_true_iff {st : RunState} {x : List Char} :
    isBusy st x = true ↔ x ∈ st.fs ∨ x ∈ st.moved_dst := by
  unfold isBusy
  rw [Bool.or_eq_true, contains_iff_mem, contains_iff_mem]

theorem isBusy_false_iff {st : RunState} {x : List Char} :
    isBusy st x = false ↔ x ∉ st.fs ∧ x ∉ st.moved_dst := by
  rw [← Bool.not_eq_true, isBusy_true_iff]
  push_neg
  rfl

theorem nodup_subset_length {l l' : List (List Char)} (h : l.Nodup)
    (hs : ∀ x ∈ l, x ∈ l') : l.length ≤ l'.length := by
  classical
  have h1 : l.toFinset.card = l.length := List.toFinset_card_of_nodup h
  have h2 : l.toFinset ⊆ l'.toFinset := by
    intro x hx
    simp only [List.mem_toFinset] at *
    exact hs x hx
  have h3 := Finset.card_le_card h2
  have h4 : l'.toFinset.card ≤ l'.length := l'.toFinset_card_le
  omega

theorem uniqueNameGo_spec (st : RunState) (f e sep : List Char) (K : Nat) :
    ∀ fuel k, k ≤ K →
      (∀ m, k ≤ m → m < K → isBusy st (candName f e sep m) = true) →
      isBusy st (candName f e sep K) = false → K - k < fuel →
      uniqueNameGo st f e sep fuel k = candName f e sep K := by
  intro fuel
  induction fuel with
  | zero => intro k _ _ _ h; omega
  | succ fuel ih =>
    intro k hk hbusy hfree hlt
    simp only [uniqueNameGo]
    by_cases hkK : k = K
    · subst hkK
      rw [hfree]
      simp
    · have hklt : k < K := lt_of_le_of_ne hk hkK
      rw [hbusy k (le_refl _) hklt]
      simp only [if_true]
      exact ih (k + 1) (by omega) (fun m hm1 hm2 => hbusy m (by omega) hm2) hfree (by omega)

/-- One batch step: under the invariant, renaming another file whose
desired path is `p` yields the predicted destination and re-establishes
the invariant. -/
theorem rename_step
    (preview : Bool) (sep : List Char) (fs0 dst0 : List (List Char)) (p : List Char)
    (hsep : ∀ c ∈ sep, c ≠ '/')
    (hpfs : p ∉ fs0) (hpdst : p ∉ dst0)
    (hcfs : ∀ k, 2 ≤ k → candName (splitext p).1 (splitext p).2 sep k ∉ fs0)
    (hcdst : ∀ k, 2 ≤ k → candName (splitext p).1 (splitext p).2 sep k ∉ dst0)
    (i : Nat) (st : RunState) (src : List Char)
    (hinv : RunInv fs0 dst0 p sep i st) :
    (rename { overwrite := false, preview := preview, sep := sep } st src p).dest =
      nextDest p sep i ∧
    RunInv fs0 dst0 p sep (i + 1)
      (rename { overwrite := false, preview := preview, sep := sep } st src p).st := by
  obtain ⟨hdst, hfs⟩ := hinv
  have hdirlen : ∀ k, 2 ≤ k →
      candName (splitext p).1 (splitext p).2 sep k ≠ dirname p := by
    intro k _ he
    have h1 := dirname_length_le p
    have h2 := candName_length_gt (splitext p).1 (splitext p).2 sep k
    rw [splitext_append p] at h2
    rw [← he] at h1
    omega
  have hfresh : ∀ m, 2 ≤ m → i < m →
      isBusy st (candName (splitext p).1 (splitext p).2 sep m) = false := by
    intro m hm2 him
    rw [isBusy_false_iff]
    constructor
    · intro hmem
      rcases hfs _ hmem with h1 | h2 | h3
      · exact hcfs m hm2 h1
      · exact cand_notin_expectedFinals hm2 him h2
      · exact hdirlen m hm2 h3.2
    · intro hmem
      rcases (hdst _).mp hmem with h1 | h2
      · exact hcdst m hm2 h1
      · exact cand_notin_expectedFinals hm2 him h2
  have hbusym : ∀ m, 2 ≤ m → m ≤ i →
      isBusy st (candName (splitext p).1 (splitext p).2 sep m) = true := by
    intro m hm2 hmi
    rw [isBusy_true_iff]
    exact Or.inr ((hdst _).mpr (Or.inr (mem_expectedFinals.mpr (Or.inr ⟨m, hm2, hmi, rfl⟩))))
  have hdirP : dirname (candName (splitext p).1 (splitext p).2 sep (i + 1)) = dirname p := by
    rw [dirname_candName _ _ _ _ hsep (splitext_ext_no_slash p)]
    conv_rhs => rw [← splitext_append p]
    rw [dirname_append_no_slash _ _ (splitext_ext_no_slash p)]
  cases i with
  | zero =>
    have hpbusy : isBusy st p = false := by
      rw [isBusy_false_iff]
      constructor
      · intro hmem
        rcases hfs _ hmem with h1 | h2 | h3
        · exact hpfs h1
        · simp [expectedFinals] at h2
        · omega
      · intro hmem
        rcases (hdst _).mp hmem with h1 | h2
        · exact hpdst h1
        · simp [expectedFinals] at h2
    unfold rename
    rw [show st.fs.length + st.moved_dst.length + 2 =
      (st.fs.length + st.moved_dst.length + 1) + 1 from rfl]
    simp only [renameGo, hpbusy, Bool.false_eq_true, if_false]
    constructor
    · simp [nextDest]
    · constructor
      · intro x
        simp only [doMove]
        by_cases hprev : preview = true
        · rw [hprev]
          simp only [if_true]
          simp only [List.mem_append, List.mem_singleton]
          rw [hdst x]
          simp [expectedFinals, mem_expectedFinals]
        · rw [if_neg (by simpa using hprev)]
          simp only [List.mem_append, List.mem_singleton]
          rw [hdst x]
          simp [expectedFinals, mem_expectedFinals]
      · intro x hx
        simp only [doMove] at hx
        by_cases hprev : preview = true
        · rw [hprev] at hx
          simp only [if_true] at hx
          rcases hfs x hx with h1 | h2 | h3
          · exact Or.inl h1
          · simp [expectedFinals] at h2
          · omega
        · rw [if_neg (by simpa using hprev)] at hx
          simp only [List.mem_cons] at hx
          rcases hx with rfl | hx2
          · exact Or.inr (Or.inl (mem_expectedFinals.mpr (Or.inl ⟨by omega, rfl⟩)))
          · have hx3 := List.erase_subset _ _ hx2
            by_cases hcont : st.fs.contains (dirname p) = true
            · rw [if_pos hcont] at hx3
              rcases hfs x hx3 with h1 | h2 | h3
              · exact Or.inl h1
              · simp [expectedFinals] at h2
              · omega
            · rw [if_neg hcont] at hx3
              rcases List.mem_cons.mp hx3 with rfl | hx4
              · exact Or.inr (Or.inr ⟨by omega, rfl⟩)
              · rcases hfs x hx4 with h1 | h2 | h3
                · exact Or.inl h1
                · simp [expectedFinals] at h2
                · omega
  | succ i0 =>
    have hpbusy : isBusy st p = true := by
      rw [isBusy_true_iff]
      exact Or.inr ((hdst _).mpr (Or.inr (mem_expectedFinals.mpr (Or.inl ⟨by omega, rfl⟩))))
    have hdstlen : i0 + 1 ≤ st.moved_dst.length := by
      have hsub : ∀ x ∈ expectedFinals p sep (i0 + 1), x ∈ st.moved_dst :=
        fun x hx => (hdst x).mpr (Or.inr hx)
      have hlen := nodup_subset_length (expectedFinals_nodup p sep (i0 + 1)) hsub
      rwa [expectedFinals_length] at hlen
    have huniq : unique_name st sep p =
        candName (splitext p).1 (splitext p).2 sep (i0 + 2) := by
      show uniqueNameGo st (splitext p).1 (splitext p).2 sep
        (st.fs.length + st.moved_dst.length + 1) 2 = _
      exact uniqueNameGo_spec st _ _ sep (i0 + 2)
        (st.fs.length + st.moved_dst.length + 1) 2 (by omega)
        (fun m hm1 hm2 => hbusym m hm1 (by omega))
        (hfresh (i0 + 2) (by omega) (by omega))
        (by omega)
    have hfree2 : isBusy st (candName (splitext p).1 (splitext p).2 sep (i0 + 2)) = false :=
      hfresh (i0 + 2) (by omega) (by omega)
    have hmemfin : ∀ x, x ∈ expectedFinals p sep (i0 + 2) ↔
        x ∈ expectedFinals p sep (i0 + 1) ∨
          x = candName (splitext p).1 (splitext p).2 sep (i0 + 2) := by
      intro x
      rw [expectedFinals_succ]
      simp [nextDest]
    unfold rename
    rw [show st.fs.length + st.moved_dst.length + 2 =
      (st.fs.length + st.moved_dst.length + 1) + 1 from rfl]
    simp only [renameGo, hpbusy, if_true]
    rw [if_neg (by simp)]
    simp only [huniq]
    simp only [hfree2, Bool.false_eq_true, if_false]
    constructor
    · simp [nextDest]
    · constructor
      · intro x
        simp only [doMove]
        by_cases hprev : preview = true
        · rw [hprev]
          simp only [if_true]
          simp only [List.mem_append, List.mem_singleton]
          rw [hdst x, hmemfin x]
          tauto
        · rw [if_neg (by simpa using hprev)]
          simp only [List.mem_append, List.mem_singleton]
          rw [hdst x, hmemfin x]
          tauto
      · intro x hx
        simp only [doMove] at hx
        by_cases hprev : preview = true
        · rw [hprev] at hx
          simp only [if_true] at hx
          rcases hfs x hx with h1 | h2 | h3
          · exact Or.inl h1
          · exact Or.inr (Or.inl (expectedFinals_mono h2))
          · exact Or.inr (Or.inr ⟨by omega, h3.2⟩)
        · rw [if_neg (by simpa using hprev)] at hx
          simp only [List.mem_cons] at hx
          rcases hx with rfl | hx2
          · exact Or.inr (Or.inl ((hmemfin _).mpr (Or.inr rfl)))
          · have hx3 := List.erase_subset _ _ hx2
            by_cases hcont :
                st.fs.contains (dirname (candName (splitext p).1 (splitext p).2 sep (i0 + 2))) =
                  true
            · rw [if_pos hcont] at hx3
              rcases hfs x hx3 with h1 | h2 | h3
              · exact Or.inl h1
              · exact Or.inr (Or.inl (expectedFinals_mono h2))
              · exact Or.inr (Or.inr ⟨by omega, h3.2⟩)
            · rw [if_neg hcont] at hx3
              rcases List.mem_cons.mp hx3 with rfl | hx4
              · refine Or.inr (Or.inr ⟨by omega, ?_⟩)
                rw [dirname_candName _ _ _ _ hsep (splitext_ext_no_slash p)]
                conv_rhs => rw [← splitext_append p]
                rw [dirname_append_no_slash _ _ (splitext_ext_no_slash p)]
              · rcases hfs x hx4 with h1 | h2 | h3
                · exact Or.inl h1
                · exact Or.inr (Or.inl (expectedFinals_mono h2))
                · exact Or.inr (Or.inr ⟨by omega, h3.2⟩)

/-- The whole batch: under the initial-state hypotheses the run produces
exactly the predicted destinations while maintaining the invariant. -/
theorem processAll_spec
    (preview : Bool) (sep : List Char) (fs0 dst0 : List (List Char)) (p : List Char)
    (hsep : ∀ c ∈ sep, c ≠ '/')
    (hpfs : p ∉ fs0) (hpdst : p ∉ dst0)
    (hcfs : ∀ k, 2 ≤ k → candName (splitext p).1 (splitext p).2 sep k ∉ fs0)
    (hcdst : ∀ k, 2 ≤ k → candName (splitext p).1 (splitext p).2 sep k ∉ dst0) :
    ∀ (srcs : List (List Char)) (i : Nat) (st : RunState), RunInv fs0 dst0 p sep i st →
      (processAll { overwrite := false, preview := preview, sep := sep } st srcs p).2 =
        (List.range srcs.length).map (fun t => nextDest p sep (i + t)) ∧
      RunInv fs0 dst0 p sep (i + srcs.length)
        (processAll { overwrite := false, preview := preview, sep := sep } st srcs p).1 := by
  intro srcs
  induction srcs with
  | nil =>
    intro i st hinv
    exact ⟨by simp [processAll], by simpa using hinv⟩
  | cons src rest ih =>
    intro i st hinv
    obtain ⟨hdest, hinv2⟩ :=
      rename_step preview sep fs0 dst0 p hsep hpfs hpdst hcfs hcdst i st src hinv
    obtain ⟨hrest, hinvN⟩ := ih (i + 1) _ hinv2
    constructor
    · show (rename _ st src p).dest :: (processAll _ _ rest p).2 = _
      rw [hdest, hrest]
      simp only [List.length_cons, List.range_succ_eq_map, List.map_cons, List.map_map]
      congr 1
      apply List.map_congr_left
      intro t _
      simp only [Function.comp_apply]
      congr 1
      omega
    · show RunInv _ _ _ _ (i + (src :: rest).length) (processAll _ _ rest p).1
      have harith : i + (src :: rest).length = (i + 1) + rest.length := by
        simp only [List.length_cons]
        omega
      rw [harith]
      exact hinvN

/-- C3: with overwrite disabled, for `N` files in one run whose computed
desired destination is the same path `p` — with `p` and its suffixed
variants initially absent from the disk and from the in-run destination
list — the duplicate resolver produces `N` pairwise-distinct final paths:
the first file gets the unsuffixed `p`, each subsequent file the name with
the dupe separator and `(2)`, `(3)`, ... inserted before the extension, in
order of processing.  Under these freshness hypotheses each used suffix is
the smallest integer free both on disk and in the in-run destination list:
the proof shows `unique_name`'s scan from 2 stops at the first free
candidate. -/
theorem claim_c3_duplicate_resolution
    (preview : Bool) (sep : List Char) (fs0 ms0 dst0 : List (List Char))
    (srcs : List (List Char)) (p : List Char)
    (hsep : ∀ c ∈ sep, c ≠ '/')
    (hpfs : p ∉ fs0) (hpdst : p ∉ dst0)
    (hcfs : ∀ k, 2 ≤ k → candName (splitext p).1 (splitext p).2 sep k ∉ fs0)
    (hcdst : ∀ k, 2 ≤ k → candName (splitext p).1 (splitext p).2 sep k ∉ dst0) :
    (processAll { overwrite := false, preview := preview, sep := sep }
        { fs := fs0, moved_src := ms0, moved_dst := dst0 } srcs p).2 =
      expectedFinals p sep srcs.length ∧
    (expectedFinals p sep srcs.length).Nodup := by
  have h0 : RunInv fs0 dst0 p sep 0 { fs := fs0, moved_src := ms0, moved_dst := dst0 } := by
    constructor
    · intro x
      simp [expectedFinals]
    · intro x hx
      exact Or.inl hx
  obtain ⟨h1, _⟩ :=
    processAll_spec preview sep fs0 dst0 p hsep hpfs hpdst hcfs hcdst srcs 0 _ h0
  refine ⟨?_, expectedFinals_nodup p sep srcs.length⟩
  rw [h1, expectedFinals_eq_map]
  simp only [Nat.zero_add]

/-- C3 witness: three files with the same desired destination `m.mkv`,
empty initial state, space separator: finals `m.mkv`, `m (2).mkv`,
`m (3).mkv`, pairwise distinct. -/
theorem claim_c3_witness :
    (processAll { overwrite := false, preview := false, sep := [' '] }
        { fs := [], moved_src := [], moved_dst := [] }
        ["s1".data, "s2".data, "s3".data] "m.mkv".data).2 =
      expectedFinals "m.mkv".data [' '] 3 ∧
    (expectedFinals "m.mkv".data [' '] 3).Nodup :=
  claim_c3_duplicate_resolution false [' '] [] [] []
    ["s1".data, "s2".data, "s3".data] "m.mkv".data
    (by decide) (by simp) (by simp)
    (fun k _ => by simp) (fun k _ => by simp)
